import Mathlib

/-!
Verification development for the BiFPN module (src/src/bifpn.py).

The source builds a bidirectional feature pyramid network:
an ordered mapping from integer pyramid levels to feature maps is first
extended with synthesized coarse levels (downsampling), then passed through a
sequence of fusion blocks, each of which evaluates a fixed 8-node topology of
weighted feature combinations.

The shallow embedding below models:
  - feature maps as (channels, height, width) plus a rational-valued data
    function (torch tensors over exact rationals; floating point rounding is
    out of scope, the structure of the arithmetic is embedded exactly);
  - Python ordered dicts (collections.OrderedDict) as insertion-ordered
    association lists over integer keys, with in-place update keeping the
    original position and fresh keys appended at the end;
  - fallible operations (attribute errors, KeyError, shape mismatches raised
    by torch) as Except String;
  - learnable parameters (convolution kernels, fusion weights, batch-norm
    coefficients) as explicit rational-valued fields; they are initialized by
    the constructors and mutated only externally (training), so theorems
    quantify over states where that matters.
-/

namespace BiFPNVerify

/-- A feature map: a multi-channel 2D tensor with (channels, height, width)
shape and rational entries, indexed data channel/row/column. -/
structure FeatureMap where
  channels : Nat
  height : Nat
  width : Nat
  data : Nat → Nat → Nat → ℚ

/-- The shape triple of a feature map. -/
def shapeOf (f : FeatureMap) : Nat × Nat × Nat := (f.channels, f.height, f.width)

/-- The all-zero empty feature map, used only as an Option default that is
never reached on success paths. -/
def fmZero : FeatureMap := ⟨0, 0, 0, fun _ _ _ => 0⟩

/-- Ordered mapping from pyramid level (or running-sequence index) to feature
map, modelling collections.OrderedDict with insertion order. -/
abbrev FMap := List (Int × FeatureMap)

/-- Association-list lookup by integer key (first occurrence), modelling
Python dict access. -/
def alookup {α : Type} (k : Int) : List (Int × α) → Option α
  | [] => none
  | kv :: t => if k = kv.1 then some kv.2 else alookup k t

/-- Python dict assignment d[k] = v: replace in place if the key is present
(keeping its position), otherwise append at the end. -/
def dictInsert {α : Type} (d : List (Int × α)) (k : Int) (v : α) : List (Int × α) :=
  if (alookup k d).isSome then d.map (fun kv => if kv.1 = k then (k, v) else kv)
  else d ++ [(k, v)]

/-- The keys of an ordered mapping, in insertion order. -/
def keysOf {α : Type} (d : List (Int × α)) : List Int := d.map Prod.fst

/-- Lift an Option to Except with a fixed error, modelling a raised Python
exception (KeyError, StopIteration, ...). -/
def liftO {α : Type} (e : String) : Option α → Except String α
  | some a => Except.ok a
  | none => Except.error e

/-- Contiguous ascending run of integer keys a, a+1, ..., a+n-1. -/
def intRange (a : Int) (n : Nat) : List Int := (List.range n).map (fun i : Nat => a + (i : Int))

/-- Re-key an ordered list of entries to consecutive keys starting at a
(characterizes the output-trimming loop of a block). -/
def rekeyFrom (a : Int) : List (Int × FeatureMap) → FMap
  | [] => []
  | kv :: t => (a, kv.2) :: rekeyFrom (a + 1) t

/-- A 1x1 convolution (torch.nn.Conv2d with kernel_size=1): per-pixel linear
map across channels, with bias. Weight values are learnable parameters. -/
structure Conv1x1 where
  inC : Nat
  outC : Nat
  weight : Nat → Nat → ℚ
  bias : Nat → ℚ

/-- Apply a 1x1 convolution; torch raises on an input whose channel count
differs from the declared in_channels. -/
def conv1x1Apply (c : Conv1x1) (f : FeatureMap) : Except String FeatureMap :=
  if f.channels = c.inC then
    Except.ok
      { channels := c.outC, height := f.height, width := f.width,
        data := fun o y x =>
          c.bias o + ((List.range c.inC).map (fun i => c.weight o i * f.data i y x)).sum }
  else Except.error "RuntimeError: channel mismatch in 1x1 conv"

/-- Zero-padded access into a feature map at possibly out-of-range integer
coordinates. -/
def paddedAt (f : FeatureMap) (c : Nat) (y x : Int) : ℚ :=
  if 0 ≤ y ∧ y < (f.height : Int) ∧ 0 ≤ x ∧ x < (f.width : Int) then
    f.data c y.toNat x.toNat
  else 0

/-- A depthwise 3x3 convolution (Conv2d kernel_size=3, padding=1, bias=False,
groups=channels): each channel convolved with its own 3x3 kernel. -/
structure DWConv where
  channels : Nat
  weight : Nat → Nat → Nat → ℚ

/-- Apply a depthwise 3x3 stride-1 pad-1 convolution (spatial size is
preserved); torch raises on a channel mismatch. -/
def dwConvApply (c : DWConv) (f : FeatureMap) : Except String FeatureMap :=
  if f.channels = c.channels then
    Except.ok
      { channels := f.channels, height := f.height, width := f.width,
        data := fun ch y x =>
          ((List.range 3).map (fun ky =>
            ((List.range 3).map (fun kx =>
              c.weight ch ky kx * paddedAt f ch ((y : Int) + ky - 1) ((x : Int) + kx - 1))).sum)).sum }
  else Except.error "RuntimeError: channel mismatch in depthwise conv"

/-- Structural floor division by two (Nat.div is well-founded and does not
reduce definitionally; this equivalent avoids that). -/
def half : Nat → Nat
  | 0 => 0
  | 1 => 0
  | n + 2 => half n + 1

/-- Output spatial extent of MaxPool2d(kernel_size=3, padding=1, stride=2) on
an input of extent n, i.e. floor((n + 2 - 3)/2) + 1 for n at least 1. -/
def poolOut (n : Nat) : Nat := half (n - 1) + 1

/-- The in-bounds entries of the 3x3 pooling window centred for output
position (y, x) with stride 2 and padding 1 (torch pads with negative
infinity, so only in-bounds positions contribute to the max). -/
def poolCandidates (f : FeatureMap) (c y x : Nat) : List ℚ :=
  ((List.range 3).flatMap (fun dy =>
    (List.range 3).map (fun dx =>
      ((2 * (y : Int) + dy - 1), (2 * (x : Int) + dx - 1))))).filterMap
    (fun p =>
      if 0 ≤ p.1 ∧ p.1 < (f.height : Int) ∧ 0 ≤ p.2 ∧ p.2 < (f.width : Int) then
        some (f.data c p.1.toNat p.2.toNat)
      else none)

/-- Maximum of a nonempty list of rationals (0 as a never-reached default for
the empty case: every valid pooling window is nonempty). -/
def listMaxD : List ℚ → ℚ
  | [] => 0
  | h :: t => t.foldl max h

/-- torch.nn.MaxPool2d(kernel_size=3, padding=1, stride=2): spatial extents
map through poolOut, each output entry is the max of its window. -/
def maxPoolApply (f : FeatureMap) : FeatureMap :=
  { channels := f.channels, height := poolOut f.height, width := poolOut f.width,
    data := fun c y x => listMaxD (poolCandidates f c y x) }

/-- torch.nn.UpsamplingNearest2d(scale_factor=2): doubles both spatial
extents, nearest-neighbour replication. -/
def upsampleApply (f : FeatureMap) : FeatureMap :=
  { channels := f.channels, height := 2 * f.height, width := 2 * f.width,
    data := fun c y x => f.data c (y / 2) (x / 2) }

/-- Batch normalization at inference, modelled as the per-channel affine map
it computes: x maps to scale c * x + shift c. The coefficients correspond to
gamma / sqrt(running_var + eps) and the matching shift; they are derived and
mutated externally (the tensor compute engine and training loop are external
collaborators), so they appear here directly as rational parameters.
momentum and eps are kept as the configuration values of the source. -/
structure BatchNorm where
  channels : Nat
  momentum : ℚ
  eps : ℚ
  scale : Nat → ℚ
  shift : Nat → ℚ

/-- Apply inference batch normalization; torch raises on channel mismatch. -/
def bnApply (bn : BatchNorm) (f : FeatureMap) : Except String FeatureMap :=
  if f.channels = bn.channels then
    Except.ok { f with data := fun c y x => bn.scale c * f.data c y x + bn.shift c }
  else Except.error "RuntimeError: channel mismatch in batchnorm"

/-- One entry of the fixed BiFPN topology (dataclass node_param of the
source): nominal feature level, node-relative input offsets, and whether the
highest-offset input is upsampled (true) or max-pooled (false). -/
structure node_param where
  feat_level : Int
  offsets : List Int
  upsample : Bool

/-- The fixed 8-entry topology _NODE_PARAMS of the source: four top-down
nodes followed by four bottom-up nodes. -/
def NODE_PARAMS : List node_param :=
  [⟨6, [3, 4], true⟩,
   ⟨5, [2, 5], true⟩,
   ⟨4, [1, 6], true⟩,
   ⟨3, [0, 7], true⟩,
   ⟨4, [1, 7, 8], false⟩,
   ⟨5, [2, 6, 9], false⟩,
   ⟨6, [3, 5, 10], false⟩,
   ⟨7, [4, 11], false⟩]

/-- State of CombineLevels: eps, the resample direction, the resolved
running-sequence offsets, the optional lateral 1x1 projection (the offset it
is attached to, plus the convolution), and the raw learnable fusion weights
(one per offset, initialized to 1, mutated externally by training). -/
structure CombineLevels where
  eps : ℚ
  upsample : Bool
  offsets : List Int
  lateral : Option (Int × Conv1x1)
  weights : List ℚ

/-- CombineLevels.__init__: resolve offsets by adding index_offset, scan the
offsets against levels_in building the lateral projection (the loop keeps the
last offset whose declared channel count differs from the block width), and
initialize one raw weight of 1.0 per offset. Fresh convolution parameters are
created by torch with values chosen by external random initialization; the
placeholder values 1 and 0 stand for them (no theorem depends on them). -/
def combineInit (param : node_param) (index_offset : Int) (channels : Nat)
    (levels_in : List (Int × Nat)) : CombineLevels :=
  let offsets := param.offsets.map (fun o => index_offset + o)
  let lateral := offsets.foldl
    (fun acc off =>
      match alookup off levels_in with
      | some cIn => if cIn ≠ channels then some (off, ⟨cIn, channels, fun _ _ => 1, fun _ => 0⟩) else acc
      | none => acc) none
  { eps := 1 / 10000, upsample := param.upsample, offsets := offsets,
    lateral := lateral, weights := List.replicate offsets.length 1 }

/-- The resample module of a node: nearest-neighbour 2x upsampling when
upsample is set, otherwise 3x3 stride-2 pad-1 max pooling. -/
def resampleApply (cl : CombineLevels) (f : FeatureMap) : FeatureMap :=
  if cl.upsample then upsampleApply f else maxPoolApply f

/-- One iteration of the gathering loop of CombineLevels.__call__: apply the
lateral convolution when the key is the designated lateral node, otherwise
take the entry directly when its key is a non-maximal offset, otherwise skip
it. -/
def gatherStepAux (cl : CombineLevels) (mx : Int) (nodes : FMap) (kv : Int × FeatureMap) :
    Option (Int × Conv1x1) → Except String FMap
  | some lat =>
      if kv.1 = lat.1 then do
        let v ← conv1x1Apply lat.2 kv.2
        pure (dictInsert nodes kv.1 v)
      else if kv.1 ∈ cl.offsets ∧ kv.1 ≠ mx then pure (dictInsert nodes kv.1 kv.2)
      else pure nodes
  | none =>
      if kv.1 ∈ cl.offsets ∧ kv.1 ≠ mx then pure (dictInsert nodes kv.1 kv.2)
      else pure nodes

/-- One iteration of the gathering loop, dispatching on the node's lateral
projection. -/
def gatherStep (cl : CombineLevels) (mx : Int) (nodes : FMap) (kv : Int × FeatureMap) :
    Except String FMap :=
  gatherStepAux cl mx nodes kv cl.lateral

/-- The gathering phase of CombineLevels.__call__: iterate the input mapping
in order, then overwrite the maximum offset entry with the resample of the
raw input at that key (a missing key is a KeyError; an empty offsets list is
the ValueError max() raises on an empty sequence). -/
def gatherNodes (cl : CombineLevels) (x : FMap) : Except String FMap := do
  let mx ← liftO "ValueError: max of empty sequence" cl.offsets.max?
  let nodes ← x.foldlM (gatherStep cl mx) []
  let vmx ← liftO "KeyError" (alookup mx x)
  pure (dictInsert nodes mx (resampleApply cl vmx))

/-- The rectified fusion weights relu(w_i) of a node. -/
def reluWeights (cl : CombineLevels) : List ℚ := cl.weights.map (fun w => max w 0)

/-- The normalization denominator torch.sum(weights + eps) of
CombineLevels.__call__, where weights is already rectified: the sum over all
inputs of (relu(w_j) + eps). -/
def combineDenom (cl : CombineLevels) : ℚ := ((reluWeights cl).map (fun w => w + cl.eps)).sum

/-- Elementwise scaling of a feature map by a scalar (tensor * scalar). -/
def fmScale (q : ℚ) (f : FeatureMap) : FeatureMap :=
  { f with data := fun c y x => f.data c y x * q }

/-- torch.stack followed by torch.sum over the stacking dimension: all
stacked feature maps must share one shape (otherwise torch raises); the
result sums them elementwise. -/
def stackSum : List FeatureMap → Except String FeatureMap
  | [] => Except.error "RuntimeError: stack expects a non-empty list"
  | h :: t =>
      if t.all (fun f => shapeOf f = shapeOf h) then
        Except.ok
          { channels := h.channels, height := h.height, width := h.width,
            data := fun c y x => ((h :: t).map (fun f => f.data c y x)).sum }
      else Except.error "RuntimeError: stack shape mismatch"

/-- CombineLevels.__call__: gather the node inputs, rectify the weights, and
combine as the stack-and-sum of nodes[offset] * relu(w_idx) / sum(relu(w)+eps)
in offset order. -/
def combineCall (cl : CombineLevels) (x : FMap) : Except String FeatureMap := do
  let nodes ← gatherNodes cl x
  let denom := combineDenom cl
  let terms ← cl.offsets.enum.mapM (fun p => do
    let v ← liftO "KeyError" (alookup p.2 nodes)
    let w ← liftO "IndexError" ((reluWeights cl).get? p.1)
    pure (fmScale (w / denom) v))
  stackSum terms

/-- Post-combination processing of one node: depthwise 3x3 conv, pointwise
1x1 conv, batch normalization. The trailing activation is applied on top by
postCombineApply. -/
structure PostCombine where
  dw : DWConv
  pw : Conv1x1
  bn : BatchNorm

/-- Apply the post-combination sequence of a node, finishing with the
pointwise activation act.

Modelled from the spec: the activation primitive (efficientnet.Swish,
imported by the source from src/efficientnet.py, which is not under src/) is
an external collaborator, a smooth self-gated pointwise nonlinearity
x * sigmoid(x); it is modelled as an arbitrary pointwise function parameter
since its transcendental definition has no exact rational form and no claim
depends on its values. -/
def postCombineApply (act : ℚ → ℚ) (pc : PostCombine) (f : FeatureMap) :
    Except String FeatureMap := do
  let f1 ← dwConvApply pc.dw f
  let f2 ← conv1x1Apply pc.pw f1
  let f3 ← bnApply pc.bn f2
  pure { f3 with data := fun c y x => act (f3.data c y x) }

/-- Construct the post-combination convolutions for one node: depthwise 3x3
(groups=channels, no bias), pointwise 1x1 with bias, and
BatchNorm2d(channels, momentum=0.01, eps=1e-3). Parameter values are
externally initialized; placeholders stand for them. -/
def postCombineInit (channels : Nat) : PostCombine :=
  { dw := ⟨channels, fun _ _ _ => 1⟩,
    pw := ⟨channels, channels, fun _ _ => 1, fun _ => 0⟩,
    bn := ⟨channels, 1 / 100, 1 / 1000, fun _ => 1, fun _ => 0⟩ }

/-- State of one BiFPNBlock: the pyramid height it trims its output to, the
activation primitive, and the per-node combiners and post-processing
convolutions. -/
structure BiFPNBlock where
  num_levels : Nat
  act : ℚ → ℚ
  combines : List CombineLevels
  post_combines : List PostCombine

/-- BiFPNBlock.__init__: index_offset = num_levels - len(channels_in) + 1,
one CombineLevels and one post-combination stack per entry of the fixed
topology. -/
def blockInit (act : ℚ → ℚ) (channels : Nat) (num_levels : Nat)
    (channels_in : List (Int × Nat)) : BiFPNBlock :=
  let index_offset : Int := (num_levels : Int) - (channels_in.length : Int) + 1
  { num_levels := num_levels, act := act,
    combines := NODE_PARAMS.map (fun p => combineInit p index_offset channels channels_in),
    post_combines := NODE_PARAMS.map (fun _ => postCombineInit channels) }

/-- A fold that repeatedly reads the last entry of the ordered mapping (the
coarsest level currently present), computes a new feature map from the
current mapping and the list element, and stores it under the next
sequential key. Shared shape of the downsampling loop of BiFPN.__call__ and
the node loop of BiFPNBlock.__call__. -/
def appendLoop {α : Type} (step : FMap → α → Except String FeatureMap)
    (d : FMap) (l : List α) : Except String FMap :=
  l.foldlM
    (fun d a => do
      let top ← liftO "StopIteration" d.getLast?
      let v ← step d a
      pure (dictInsert d (top.1 + 1) v)) d

/-- The output-trimming loop of BiFPNBlock.__call__: keep only the entries
whose enumeration index reaches len - num_levels, re-keyed contiguously from
the level offset. -/
def trimGo (lvlOff : Int) (cut : Nat) : FMap → List (Nat × (Int × FeatureMap)) → FMap
  | ret, [] => ret
  | ret, p :: rest =>
      if p.1 < cut then trimGo lvlOff cut ret rest
      else trimGo lvlOff cut (dictInsert ret ((ret.length : Int) + lvlOff) p.2.2) rest

/-- Trim an ordered mapping to its last num_levels entries, re-keyed to start
at lvlOff (the first key of the block input). -/
def trimAndRekey (lvlOff : Int) (num_levels : Nat) (x : FMap) : FMap :=
  trimGo lvlOff (x.length - num_levels) [] x.enum

/-- One fusion-node step of the block loop: combine the current mapping's
designated inputs, then post-process. -/
def nodeStep (act : ℚ → ℚ) (d : FMap) (cp : CombineLevels × PostCombine) :
    Except String FeatureMap := do
  let comb ← combineCall cp.1 d
  postCombineApply act cp.2 comb

/-- BiFPNBlock.__call__: record the first key, run each combine /
post-combine pair appending its output at the next sequential key, and
return both the mutated input mapping (the Python dict is updated in place)
and the trimmed re-keyed output. -/
def blockCall (b : BiFPNBlock) (x : FMap) : Except String (FMap × FMap) := do
  let first ← liftO "StopIteration" x.head?
  let x2 ← appendLoop (nodeStep b.act) x (b.combines.zip b.post_combines)
  pure (x2, trimAndRekey first.1 b.num_levels x2)

/-- One layer of the downsampling expander: the first is
Sequential(Conv2d(kernel_size=1), MaxPool2d(3, padding=1, stride=2)), the
rest are plain max-pool layers. -/
inductive DownLayer where
  | convPool (c : Conv1x1)
  | pool

/-- Apply one expander layer. -/
def downLayerApply : DownLayer → FeatureMap → Except String FeatureMap
  | DownLayer.convPool c, f => do
      let f1 ← conv1x1Apply c f
      pure (maxPoolApply f1)
  | DownLayer.pool, f => pure (maxPoolApply f)

/-- State of the BiFPN stack. downsample_convs is none exactly when the
attribute was never assigned in __init__ (bifpn_height equal to the number
of input levels), in which case reading it in __call__ is an
AttributeError. -/
structure BiFPN where
  levels_in : List Int
  bifpn_height : Nat
  in_channels : List Nat
  downsample_convs : Option (List DownLayer)
  bifp_layers : List BiFPNBlock

/-- BiFPN.__init__. Mirrors the source exactly: the downsampling layers are
only assigned when bifpn_height differs from len(levels) (in_channels[-1] on
an empty list is the one possible IndexError there); level_channels slices
the last len(levels) input channel counts (a[-0:] is the whole list) and
pads with out_channels; channel_dict indexes level_channels positionally
(IndexError when levels is longer); the first block receives channel_dict
and every later block the uniform out_channels mapping. The activation
primitive act is threaded to the blocks (external collaborator, see
postCombineApply). -/
def bifpnInit (act : ℚ → ℚ) (in_channels : List Nat) (out_channels : Nat)
    (num_bifpns : Nat) (bifpn_height : Nat) (levels : List Int) :
    Except String BiFPN := do
  let downs ←
    if bifpn_height ≠ levels.length then do
      let lastC ← liftO "IndexError" in_channels.getLast?
      pure (some (DownLayer.convPool ⟨lastC, out_channels, fun _ _ => 1, fun _ => 0⟩ ::
        List.replicate (bifpn_height - levels.length - 1) DownLayer.pool))
    else pure none
  let sliced := if levels.length = 0 then in_channels
    else in_channels.drop (in_channels.length - levels.length)
  let level_channels := sliced ++ List.replicate (bifpn_height - levels.length) out_channels
  let channel_dict ← levels.enum.mapM (fun p => do
    let c ← liftO "IndexError" (level_channels.get? p.1)
    pure (p.2, c))
  let blocks := (List.range num_bifpns).map (fun idx =>
    blockInit act out_channels bifpn_height
      (if idx = 0 then channel_dict else levels.map (fun l => (l, out_channels))))
  pure { levels_in := levels, bifpn_height := bifpn_height, in_channels := in_channels,
         downsample_convs := downs, bifp_layers := blocks }

/-- The sequencing of fusion blocks by torch.nn.Sequential: each block
mutates its input mapping in place and returns a fresh trimmed mapping that
feeds the next block. The first component tracks the final state of the
mapping the sequence was invoked on (the caller-visible mutation); with no
blocks the output is that very mapping. -/
def runBlocks : List BiFPNBlock → FMap → Except String (FMap × FMap)
  | [], fm => Except.ok (fm, fm)
  | b :: rest, fm => do
      let r ← blockCall b fm
      let r2 ← runBlocks rest r.2
      pure (r.1, r2.2)

/-- One expander step of the downsampling loop: read the current coarsest
entry and push it through the layer. -/
def downStep (d : FMap) (layer : DownLayer) : Except String FeatureMap := do
  let top ← liftO "StopIteration" d.getLast?
  downLayerApply layer top.2

/-- BiFPN.__call__: read downsample_convs (AttributeError when it was never
assigned), apply each expander layer to the current coarsest entry storing
the result at the next key — mutating the caller's mapping in place — then
run the blocks. Returns (final state of the caller's mapping, output). -/
def bifpnCall (b : BiFPN) (feature_maps : FMap) : Except String (FMap × FMap) := do
  let downs ← liftO "AttributeError: downsample_convs" b.downsample_convs
  let fm ← appendLoop downStep feature_maps downs
  runBlocks b.bifp_layers fm

/-- Feature map with given shape and data. -/
def fmOf (c h w : Nat) (d : Nat → Nat → Nat → ℚ) : FeatureMap := ⟨c, h, w, d⟩

/-- Feature map of a given shape with all-zero data. -/
def fmConst (c h w : Nat) : FeatureMap := ⟨c, h, w, fun _ _ _ => 0⟩

/-- Identity stand-in for the external activation primitive in concrete
evaluations (the shapes and keys being evaluated never depend on it). -/
def actId : ℚ → ℚ := fun q => q

/-- The per-pixel combination formula as the spec states it, for comparison
with the source. Modelled from the spec: "normalize by their sum plus a
small epsilon (1e-4)" — a single epsilon added to the sum of the rectified
weights, the weighted sum of the input values divided by it. -/
def specSingleEpsCombine (cl : CombineLevels) (vals : List ℚ) : ℚ :=
  ((vals.zip (reluWeights cl)).map (fun p => p.2 * p.1)).sum /
    ((reluWeights cl).sum + cl.eps)

/-- Well-formed three-level input for the exact-height configuration. -/
def c1Input : FMap := [(3, fmConst 40 64 64), (4, fmConst 80 32 32), (5, fmConst 160 16 16)]

/-- Construct the stack with bifpn_height = len(levels) = 3 and run one
forward call. -/
def c1Run : Except String (FMap × FMap) := do
  let st ← bifpnInit actId [40, 80, 160] 64 1 3 [3, 4, 5]
  bifpnCall st c1Input

/-- Input mapping for the caller-mutation scenario. -/
def c3Input : FMap := [(3, fmConst 8 32 32), (4, fmConst 16 16 16), (5, fmConst 32 8 8)]

/-- Forward run used to exhibit the in-place mutation of the caller's
mapping. -/
def c3Run : Except String (FMap × FMap) := do
  let st ← bifpnInit actId [8, 16, 32] 8 1 5 [3, 4, 5]
  bifpnCall st c3Input

/-- A two-input fusion node with raw weights 1 and 1 (the values the source
initializes them to). -/
def c4cl : CombineLevels := ⟨1 / 10000, true, [0, 1], none, [1, 1]⟩

/-- Concrete inputs to the node: an all-ones 1x2x2 map and an all-ones 1x1x1
map (the latter is the maximum offset and gets upsampled to 1x2x2). -/
def c4x : FMap := [(0, fmOf 1 2 2 (fun _ _ _ => 1)), (1, fmOf 1 1 1 (fun _ _ _ => 1))]

/-- A block whose resolved offsets cannot refer to anything the running
sequence will contain: num_levels = 10 with three declared input levels
gives index_offset 8, so the first node's offsets resolve to 11 and 12. -/
def c5Block : BiFPNBlock := blockInit actId 64 10 [(3, 64), (4, 64), (5, 64)]

/-- Well-formed three-level input mapping for that block. -/
def c5Input : FMap := [(3, fmConst 64 8 8), (4, fmConst 64 4 4), (5, fmConst 64 2 2)]

/-- Valid exact-height configuration (bifpn_height = number of input levels,
which the spec admits) with a well-formed input. -/
def c6Input : FMap := [(2, fmConst 32 8 8), (3, fmConst 64 4 4), (4, fmConst 128 2 2)]

/-- Forward run of the exact-height configuration used against claim C6. -/
def c6Run : Except String (FMap × FMap) := do
  let st ← bifpnInit actId [32, 64, 128] 16 1 3 [2, 3, 4]
  bifpnCall st c6Input

/-- A small constructed stack reused by the determinism witness. -/
def c8St : BiFPN :=
  (bifpnInit actId [8] 4 1 2 [0]).toOption.getD ⟨[], 0, [], none, []⟩

/-- A one-level input for the determinism witness. -/
def c8Inp : FMap := [(0, fmConst 8 4 4)]

/-- The concrete output of the two-input fusion node, used by the C4
witness. -/
def c4out : FeatureMap := (combineCall c4cl c4x).toOption.getD fmZero

/-- A one-input fusion node whose single raw weight has been driven negative
by training. -/
def c9cl : CombineLevels := ⟨1 / 10000, true, [0], none, [-1]⟩

/-- A one-entry input mapping with nonzero data for the no-division-by-zero
witness. -/
def c9x : FMap := [(0, fmOf 1 1 1 (fun _ _ _ => 5))]

/-- A fusion node built by the source constructor whose offsets resolve to
[3, 4]. -/
def c5wcl : CombineLevels := combineInit ⟨6, [3, 4], true⟩ 0 64 []

/-- An input mapping missing offset 4. -/
def c5wx : FMap := [(3, fmConst 64 4 4)]

/-- A 64-to-64 lateral convolution for the C10 witness. -/
def c10conv : Conv1x1 := ⟨64, 64, fun _ _ => 1, fun _ => 0⟩

/-- A fusion node whose designated lateral offset coincides with its maximum
offset. -/
def c10cl : CombineLevels := ⟨1 / 10000, true, [0, 1], some (1, c10conv), [1, 1]⟩

/-- Concrete inputs for the C10 witness. -/
def c10x : FMap := [(0, fmConst 64 2 2), (1, fmConst 64 1 1)]

/-- Input mapping for the in-place-mutation witness (distinct from the
counterexample run). -/
def c3wInput : FMap := [(3, fmConst 4 16 16), (4, fmConst 8 8 8), (5, fmConst 16 4 4)]

/-- Stack for the in-place-mutation witness. -/
def c3wSt : BiFPN :=
  (bifpnInit actId [4, 8, 16] 4 1 5 [3, 4, 5]).toOption.getD ⟨[], 0, [], none, []⟩

/-- Mutated-mapping/output pair of the in-place-mutation witness run. -/
def c3wPair : FMap × FMap := (bifpnCall c3wSt c3wInput).toOption.getD ([], [])

/-- Input mapping for the output-structure witness. -/
def c6wInput : FMap := [(3, fmConst 6 32 32), (4, fmConst 12 16 16), (5, fmConst 24 8 8)]

/-- Two-block stack for the output-structure witness. -/
def c6wSt : BiFPN :=
  (bifpnInit actId [6, 12, 24] 8 2 5 [3, 4, 5]).toOption.getD ⟨[], 0, [], none, []⟩

/-- Mutated-mapping/output pair of the output-structure witness run. -/
def c6wPair : FMap × FMap := (bifpnCall c6wSt c6wInput).toOption.getD ([], [])

/-! ## Theorems -/

/-! ### Basic facts about the Except monad, lookups and in-place insertion -/

@[simp]
theorem ok_bind {α β : Type} (a : α) (f : α → Except String β) :
    (Except.ok a >>= f) = f a := rfl

@[simp]
theorem error_bind {α β : Type} (e : String) (f : α → Except String β) :
    ((Except.error e : Except String α) >>= f) = Except.error e := rfl

@[simp]
theorem liftO_some {α : Type} (e : String) (a : α) : liftO e (some a) = Except.ok a := rfl

@[simp]
theorem liftO_none {α : Type} (e : String) : (liftO e none : Except String α) = Except.error e := rfl

theorem bind_ok_inv {α β : Type} {e : Except String α} {f : α → Except String β} {b : β}
    (h : (e >>= f) = Except.ok b) : ∃ a, e = Except.ok a ∧ f a = Except.ok b := by
  cases e with
  | ok a => exact ⟨a, rfl, h⟩
  | error msg => simp at h

theorem liftO_ok_inv {α : Type} {e : String} {o : Option α} {a : α}
    (h : liftO e o = Except.ok a) : o = some a := by
  cases o with
  | some b => cases h; rfl
  | none => simp at h

@[simp]
theorem alookup_nil {α : Type} (k : Int) : alookup k ([] : List (Int × α)) = none := rfl

@[simp]
theorem alookup_cons {α : Type} (k : Int) (kv : Int × α) (t : List (Int × α)) :
    alookup k (kv :: t) = if k = kv.1 then some kv.2 else alookup k t := rfl

theorem alookup_map_replace {α : Type} (k j : Int) (v : α) (hne : j ≠ k) :
    ∀ d : List (Int × α),
      alookup j (d.map (fun kv => if kv.1 = k then (k, v) else kv)) = alookup j d := by
  intro d
  induction d with
  | nil => rfl
  | cons kv t ih =>
      simp only [List.map_cons]
      by_cases hk : kv.1 = k
      · have hj : ¬ j = kv.1 := fun he => hne (he.trans hk)
        rw [if_pos hk]
        simp [hne, hj, ih]
      · rw [if_neg hk]
        by_cases hj : j = kv.1
        · simp [hj]
        · simp [hj, ih]

theorem alookup_map_replace_self {α : Type} (k : Int) (v : α) :
    ∀ d : List (Int × α), (alookup k d).isSome →
      alookup k (d.map (fun kv => if kv.1 = k then (k, v) else kv)) = some v := by
  intro d
  induction d with
  | nil => intro h; simp at h
  | cons kv t ih =>
      intro h
      simp only [List.map_cons]
      by_cases hk : kv.1 = k
      · rw [if_pos hk]
        simp
      · rw [if_neg hk]
        have hk2 : ¬ k = kv.1 := fun he => hk he.symm
        simp only [alookup_cons, hk2, if_false] at h ⊢
        exact ih h

theorem alookup_append_self {α : Type} (k : Int) (v : α) :
    ∀ d : List (Int × α), alookup k d = none → alookup k (d ++ [(k, v)]) = some v := by
  intro d
  induction d with
  | nil => intro _; simp
  | cons kv t ih =>
      intro h
      simp only [alookup_cons] at h
      by_cases hk : k = kv.1
      · rw [if_pos hk] at h
        cases h
      · rw [if_neg hk] at h
        simp only [List.cons_append, alookup_cons, hk, if_false]
        exact ih h

theorem alookup_append_ne {α : Type} (k j : Int) (v : α) (hne : j ≠ k) :
    ∀ d : List (Int × α), alookup j (d ++ [(k, v)]) = alookup j d := by
  intro d
  induction d with
  | nil => simp [hne]
  | cons kv t ih =>
      by_cases hj : j = kv.1
      · simp [hj]
      · simp [hj, ih]

theorem alookup_dictInsert_self {α : Type} (d : List (Int × α)) (k : Int) (v : α) :
    alookup k (dictInsert d k v) = some v := by
  unfold dictInsert
  by_cases h : (alookup k d).isSome
  · rw [if_pos h]
    exact alookup_map_replace_self k v d h
  · rw [if_neg h]
    exact alookup_append_self k v d (Option.not_isSome_iff_eq_none.mp h)

theorem alookup_dictInsert_ne {α : Type} (d : List (Int × α)) (k j : Int) (v : α)
    (hne : j ≠ k) : alookup j (dictInsert d k v) = alookup j d := by
  unfold dictInsert
  by_cases h : (alookup k d).isSome
  · rw [if_pos h]
    exact alookup_map_replace k j v hne d
  · rw [if_neg h]
    exact alookup_append_ne k j v hne d

theorem alookup_eq_none_of_not_mem {α : Type} (d : List (Int × α)) (k : Int)
    (h : k ∉ keysOf d) : alookup k d = none := by
  induction d with
  | nil => rfl
  | cons kv t ih =>
      have h1 : ¬ k = kv.1 := by
        intro he
        exact h (by simp [keysOf, he])
      simp only [alookup_cons, h1, if_false]
      exact ih (fun hm => h (by simp only [keysOf, List.map_cons, List.mem_cons]; exact Or.inr hm))

theorem keys_dictInsert_subset {α : Type} (d : List (Int × α)) (k j : Int) (v : α)
    (h : j ∈ keysOf (dictInsert d k v)) : j ∈ keysOf d ∨ j = k := by
  unfold dictInsert at h
  by_cases hs : (alookup k d).isSome
  · rw [if_pos hs] at h
    simp only [keysOf, List.map_map, List.mem_map] at h
    obtain ⟨kv, hkv, hei⟩ := h
    by_cases hk : kv.1 = k
    · right
      rw [← hei]
      simp [Function.comp, hk]
    · left
      simp only [Function.comp, if_neg hk] at hei
      exact List.mem_map.2 ⟨kv, hkv, hei⟩
  · rw [if_neg hs] at h
    simp only [keysOf, List.map_append, List.mem_append] at h
    rcases h with h | h
    · exact Or.inl h
    · simp only [List.map_cons, List.map_nil, List.mem_singleton] at h
      exact Or.inr h

theorem mapM_ok_forall {α β : Type} (f : α → Except String β) :
    ∀ (l : List α) (ys : List β), l.mapM f = Except.ok ys → ∀ a ∈ l, ∃ b, f a = Except.ok b := by
  intro l
  induction l with
  | nil => intro ys _ a ha; cases ha
  | cons x t ih =>
      intro ys h a ha
      rw [List.mapM_cons] at h
      obtain ⟨b, hb, h2⟩ := bind_ok_inv h
      obtain ⟨bs, hbs, _⟩ := bind_ok_inv h2
      rcases List.mem_cons.mp ha with ha | ha
      · exact ⟨b, ha ▸ hb⟩
      · exact ih bs hbs a ha

theorem mapM_ok_mem {α β : Type} (f : α → Except String β) :
    ∀ (l : List α) (ys : List β), l.mapM f = Except.ok ys → ∀ b ∈ ys, ∃ a ∈ l, f a = Except.ok b := by
  intro l
  induction l with
  | nil =>
      intro ys h b hb
      cases h
      cases hb
  | cons x t ih =>
      intro ys h b hb
      rw [List.mapM_cons] at h
      obtain ⟨b0, hb0, h2⟩ := bind_ok_inv h
      obtain ⟨bs, hbs, hpure⟩ := bind_ok_inv h2
      have hys : b0 :: bs = ys := by
        have : (pure (b0 :: bs) : Except String (List β)) = Except.ok (b0 :: bs) := rfl
        rw [this] at hpure
        exact Except.ok.inj hpure
      rw [← hys] at hb
      rcases List.mem_cons.mp hb with hb | hb
      · exact ⟨x, List.mem_cons_self x t, hb ▸ hb0⟩
      · obtain ⟨a, ha, hfa⟩ := ih bs hbs b hb
        exact ⟨a, List.mem_cons_of_mem x ha, hfa⟩

theorem mapM_ok_map {α β : Type} (f : α → Except String β) (g : α → β) :
    ∀ (l : List α) (ys : List β), l.mapM f = Except.ok ys →
      (∀ a ∈ l, f a = Except.ok (g a)) → ys = l.map g := by
  intro l
  induction l with
  | nil =>
      intro ys h _
      cases h
      rfl
  | cons x t ih =>
      intro ys h hg
      rw [List.mapM_cons] at h
      obtain ⟨b, hb, h2⟩ := bind_ok_inv h
      obtain ⟨bs, hbs, hpure⟩ := bind_ok_inv h2
      have hys : b :: bs = ys := by
        have : (pure (b :: bs) : Except String (List β)) = Except.ok (b :: bs) := rfl
        rw [this] at hpure
        exact Except.ok.inj hpure
      have hx := hg x (List.mem_cons_self x t)
      rw [hx] at hb
      have hbb := Except.ok.inj hb
      rw [← hys, List.map_cons, ← hbb]
      exact congrArg _ (ih bs hbs (fun a ha => hg a (List.mem_cons_of_mem x ha)))

theorem mapM_congr {α β : Type} (f g : α → Except String β) :
    ∀ (l : List α), (∀ a ∈ l, f a = g a) → l.mapM f = l.mapM g := by
  intro l
  induction l with
  | nil => intro _; rfl
  | cons x t ih =>
      intro h
      rw [List.mapM_cons, List.mapM_cons, h x (List.mem_cons_self x t),
        ih (fun a ha => h a (List.mem_cons_of_mem x ha))]

theorem alookup_isSome_of_mem {α : Type} :
    ∀ (d : List (Int × α)) (k : Int), k ∈ keysOf d → (alookup k d).isSome := by
  intro d
  induction d with
  | nil => intro k hk; cases hk
  | cons kv t ih =>
      intro k hk
      by_cases he : k = kv.1
      · simp [he]
      · simp only [alookup_cons, he, if_false]
        apply ih
        have hk2 : k ∈ kv.1 :: keysOf t := hk
        rcases List.mem_cons.mp hk2 with h | h
        · exact absurd h he
        · exact h

theorem exists_enumFrom_pair {α : Type} :
    ∀ (l : List α) (k : Nat) (a : α), a ∈ l → ∃ i, (i, a) ∈ List.enumFrom k l := by
  intro l
  induction l with
  | nil => intro k a ha; cases ha
  | cons x t ih =>
      intro k a ha
      rcases List.mem_cons.mp ha with ha | ha
      · exact ⟨k, by rw [ha]; exact List.mem_cons_self _ _⟩
      · obtain ⟨i, hi⟩ := ih (k + 1) a ha
        exact ⟨i, List.mem_cons_of_mem _ hi⟩

/-! ### Key ranges, the append loop and the trim loop -/

theorem intRange_zero (a : Int) : intRange a 0 = [] := rfl

theorem intRange_succ (a : Int) (n : Nat) : intRange a (n + 1) = a :: intRange (a + 1) n := by
  unfold intRange
  rw [List.range_succ_eq_map, List.map_cons, List.map_map]
  congr 1
  · simp
  · apply List.map_congr_left
    intro i _
    simp only [Function.comp]
    push_cast
    ring

theorem intRange_length (a : Int) (n : Nat) : (intRange a n).length = n := by
  simp [intRange]

theorem intRange_append_one (a : Int) (n : Nat) :
    intRange a n ++ [a + n] = intRange a (n + 1) := by
  unfold intRange
  rw [List.range_succ, List.map_append]
  simp

theorem mem_intRange {a j : Int} {n : Nat} (h : j ∈ intRange a n) :
    a ≤ j ∧ j < a + n := by
  simp only [intRange, List.mem_map, List.mem_range] at h
  obtain ⟨i, hi, he⟩ := h
  omega

theorem dictInsert_fresh {α : Type} (d : List (Int × α)) (k : Int) (v : α)
    (h : k ∉ keysOf d) : dictInsert d k v = d ++ [(k, v)] := by
  unfold dictInsert
  rw [alookup_eq_none_of_not_mem d k h]
  rfl

theorem rekeyFrom_keys (l : List (Int × FeatureMap)) :
    ∀ a : Int, keysOf (rekeyFrom a l) = intRange a l.length := by
  induction l with
  | nil => intro a; rfl
  | cons kv t ih =>
      intro a
      show a :: keysOf (rekeyFrom (a + 1) t) = intRange a (t.length + 1)
      rw [ih (a + 1), intRange_succ]

theorem rekeyFrom_values (l : List (Int × FeatureMap)) :
    ∀ a : Int, (rekeyFrom a l).map Prod.snd = l.map Prod.snd := by
  induction l with
  | nil => intro a; rfl
  | cons kv t ih =>
      intro a
      show kv.2 :: (rekeyFrom (a + 1) t).map Prod.snd = kv.2 :: t.map Prod.snd
      rw [ih]

theorem chain_lt_ub : ∀ (l : List Int), l.Chain' (· < ·) →
    ∀ (m : Int), l.getLast? = some m → ∀ k ∈ l, k ≤ m := by
  intro l
  induction l with
  | nil => intro _ m hm; cases hm
  | cons a t ih =>
      intro hch m hm k hk
      cases t with
      | nil =>
          have ham : a = m := by
            have : some a = some m := hm
            exact Option.some.inj this
          rcases List.mem_cons.mp hk with hk | hk
          · omega
          · cases hk
      | cons b t2 =>
          rw [List.getLast?_cons_cons] at hm
          obtain ⟨hab, hcht⟩ := List.chain'_cons'.mp hch
          rcases List.mem_cons.mp hk with hk | hk
          · subst hk
            have hb : k < b := hab b rfl
            have hbm : b ≤ m := ih hcht m hm b (List.mem_cons_self _ _)
            omega
          · exact ih hcht m hm k hk

theorem appendLoop_ok_structure {α : Type} (step : FMap → α → Except String FeatureMap) :
    ∀ (l : List α) (d d2 : FMap) (m : Int × FeatureMap),
      d.getLast? = some m →
      (∀ kv ∈ d, kv.1 ≤ m.1) →
      appendLoop step d l = Except.ok d2 →
      ∃ app : FMap,
        d2 = d ++ app ∧
        keysOf app = intRange (m.1 + 1) l.length ∧
        (∀ kv ∈ app, ∃ dcur a, a ∈ l ∧ step dcur a = Except.ok kv.2) ∧
        d2.getLast?.map Prod.fst = some (m.1 + l.length) ∧
        (∀ kv ∈ d2, kv.1 ≤ m.1 + l.length) := by
  intro l
  induction l with
  | nil =>
      intro d d2 m hlast hub h
      have he : d = d2 := Except.ok.inj h
      subst he
      refine ⟨[], ?_, ?_, ?_, ?_, ?_⟩
      · simp
      · rfl
      · intro kv hkv
        cases hkv
      · rw [hlast]
        simp
      · intro kv hkv
        have := hub kv hkv
        simp only [List.length_nil]
        omega
  | cons a t ih =>
      intro d d2 m hlast hub h
      unfold appendLoop at h
      rw [List.foldlM_cons] at h
      obtain ⟨d1, h1, h2⟩ := bind_ok_inv h
      rw [hlast] at h1
      simp only [liftO_some, ok_bind] at h1
      obtain ⟨v, hv, h3⟩ := bind_ok_inv h1
      have hd1 : d1 = dictInsert d (m.1 + 1) v := (Except.ok.inj h3).symm
      have hfresh : (m.1 + 1) ∉ keysOf d := by
        intro hm
        obtain ⟨kv, hkv, he⟩ := List.mem_map.mp hm
        have := hub kv hkv
        omega
      rw [dictInsert_fresh d _ v hfresh] at hd1
      have hlast1 : d1.getLast? = some (m.1 + 1, v) := by
        rw [hd1]
        exact List.getLast?_concat d
      have hub1 : ∀ kv ∈ d1, kv.1 ≤ m.1 + 1 := by
        intro kv hkv
        rw [hd1] at hkv
        rcases List.mem_append.mp hkv with hk | hk
        · have := hub kv hk
          omega
        · have : kv = (m.1 + 1, v) := by simpa using hk
          rw [this]
      have h2' : appendLoop step d1 t = Except.ok d2 := h2
      obtain ⟨app1, happ1, hkeys1, hprov1, hlast2, hub2⟩ := ih d1 d2 (m.1 + 1, v) hlast1 hub1 h2'
      refine ⟨(m.1 + 1, v) :: app1, ?_, ?_, ?_, ?_, ?_⟩
      · rw [happ1, hd1, List.append_assoc]
        rfl
      · show (m.1 + 1) :: keysOf app1 = intRange (m.1 + 1) (t.length + 1)
        rw [hkeys1, intRange_succ]
      · intro kv hkv
        rcases List.mem_cons.mp hkv with hk | hk
        · exact ⟨d, a, List.mem_cons_self a t, by rw [hk]; exact hv⟩
        · obtain ⟨dc, a2, ha2, hs⟩ := hprov1 kv hk
          exact ⟨dc, a2, List.mem_cons_of_mem a ha2, hs⟩
      · refine hlast2.trans ?_
        congr 1
        simp only [List.length_cons]
        push_cast
        ring
      · intro kv hkv
        have := hub2 kv hkv
        simp only [List.length_cons]
        push_cast at this ⊢
        omega

theorem trimGo_enumFrom_eq (off : Int) (cut : Nat) :
    ∀ (x : List (Int × FeatureMap)) (k : Nat) (ret : FMap),
      keysOf ret = intRange off ret.length →
      trimGo off cut ret (List.enumFrom k x) =
        ret ++ rekeyFrom ((ret.length : Int) + off) (x.drop (cut - k)) := by
  intro x
  induction x with
  | nil =>
      intro k ret _
      show trimGo off cut ret [] = ret ++ rekeyFrom _ ([].drop (cut - k))
      simp [trimGo, rekeyFrom]
  | cons p t ih =>
      intro k ret hkeys
      show trimGo off cut ret ((k, p) :: List.enumFrom (k + 1) t) = _
      by_cases hk : k < cut
      · simp only [trimGo]
        rw [if_pos hk, ih (k + 1) ret hkeys]
        have harith : cut - k = (cut - (k + 1)) + 1 := by omega
        rw [harith, List.drop_succ_cons]
      · simp only [trimGo]
        rw [if_neg hk]
        have hfresh : ((ret.length : Int) + off) ∉ keysOf ret := by
          rw [hkeys]
          intro hm
          have := mem_intRange hm
          omega
        rw [dictInsert_fresh ret _ _ hfresh]
        have hkeys2 : keysOf (ret ++ [((ret.length : Int) + off, p.2)]) =
            intRange off ((ret ++ [((ret.length : Int) + off, p.2)]).length) := by
          simp only [keysOf, List.map_append, List.map_cons, List.map_nil, List.length_append,
            List.length_cons, List.length_nil]
          have h1 : (ret.length : Int) + off = off + ret.length := by ring
          have h2 : (List.map Prod.fst ret : List Int) = intRange off ret.length := hkeys
          rw [h1, h2, intRange_append_one]
        rw [ih (k + 1) _ hkeys2]
        have h0 : cut - k = 0 := by omega
        have h00 : cut - (k + 1) = 0 := by omega
        rw [h0, h00, List.drop_zero, List.drop_zero, List.append_assoc]
        congr 1
        show ((ret.length : Int) + off, p.2) ::
            rekeyFrom (((ret ++ [((ret.length : Int) + off, p.2)]).length : Int) + off) t =
          rekeyFrom ((ret.length : Int) + off) (p :: t)
        rw [rekeyFrom]
        congr 2
        simp only [List.length_append, List.length_cons, List.length_nil]
        push_cast
        ring

/-! ### Channel propagation and the expander/block folds -/

theorem conv1x1_ok_channels (c : Conv1x1) (f g : FeatureMap)
    (h : conv1x1Apply c f = Except.ok g) : g.channels = c.outC := by
  unfold conv1x1Apply at h
  by_cases hc : f.channels = c.inC
  · rw [if_pos hc] at h
    rw [← Except.ok.inj h]
  · rw [if_neg hc] at h
    cases h

theorem bn_ok_channels (bn : BatchNorm) (f g : FeatureMap)
    (h : bnApply bn f = Except.ok g) : g.channels = f.channels := by
  unfold bnApply at h
  by_cases hc : f.channels = bn.channels
  · rw [if_pos hc] at h
    rw [← Except.ok.inj h]
  · rw [if_neg hc] at h
    cases h

theorem postCombine_ok_channels (act : ℚ → ℚ) (pc : PostCombine) (f out : FeatureMap)
    (h : postCombineApply act pc f = Except.ok out) : out.channels = pc.pw.outC := by
  unfold postCombineApply at h
  obtain ⟨f1, h1, h2⟩ := bind_ok_inv h
  obtain ⟨f2, h3, h4⟩ := bind_ok_inv h2
  obtain ⟨f3, h5, h6⟩ := bind_ok_inv h4
  have ho : out = { f3 with data := fun c y x => act (f3.data c y x) } := (Except.ok.inj h6).symm
  rw [ho]
  show f3.channels = pc.pw.outC
  rw [bn_ok_channels _ _ _ h5, conv1x1_ok_channels _ _ _ h3]

theorem nodeStep_ok_channels (act : ℚ → ℚ) (d : FMap) (cp : CombineLevels × PostCombine)
    (v : FeatureMap) (h : nodeStep act d cp = Except.ok v) : v.channels = cp.2.pw.outC := by
  unfold nodeStep at h
  obtain ⟨comb, _, h2⟩ := bind_ok_inv h
  exact postCombine_ok_channels act cp.2 comb v h2

theorem maxPool_channels (f : FeatureMap) : (maxPoolApply f).channels = f.channels := rfl

theorem downStep_convPool_channels (c : Conv1x1) (d : FMap) (v : FeatureMap)
    (h : downStep d (DownLayer.convPool c) = Except.ok v) : v.channels = c.outC := by
  unfold downStep at h
  obtain ⟨top, _, h2⟩ := bind_ok_inv h
  unfold downLayerApply at h2
  obtain ⟨f1, h3, h4⟩ := bind_ok_inv h2
  have hv : v = maxPoolApply f1 := (Except.ok.inj h4).symm
  rw [hv, maxPool_channels, conv1x1_ok_channels _ _ _ h3]

theorem downStep_pool_inv (d : FMap) (v : FeatureMap)
    (h : downStep d DownLayer.pool = Except.ok v) :
    ∃ top, d.getLast? = some top ∧ v = maxPoolApply top.2 := by
  unfold downStep at h
  obtain ⟨top, h1, h2⟩ := bind_ok_inv h
  refine ⟨top, liftO_ok_inv h1, ?_⟩
  unfold downLayerApply at h2
  exact (Except.ok.inj h2).symm

theorem pool_fold_channels (outC : Nat) :
    ∀ (k : Nat) (d d2 : FMap) (m : Int × FeatureMap),
      d.getLast? = some m → m.2.channels = outC →
      (∀ kv ∈ d, kv.1 ≤ m.1) →
      appendLoop downStep d (List.replicate k DownLayer.pool) = Except.ok d2 →
      ∃ app m2, d2 = d ++ app ∧ keysOf app = intRange (m.1 + 1) k ∧
        (∀ kv ∈ app, kv.2.channels = outC) ∧
        d2.getLast? = some m2 ∧ m2.2.channels = outC ∧ m2.1 = m.1 + k ∧
        (∀ kv ∈ d2, kv.1 ≤ m.1 + k) := by
  intro k
  induction k with
  | zero =>
      intro d d2 m hlast hch hub h
      have he : d = d2 := Except.ok.inj h
      subst he
      exact ⟨[], m, by simp, rfl, (by intro kv hkv; cases hkv), hlast, hch, (by omega),
        (by intro kv hkv; have := hub kv hkv; omega)⟩
  | succ k ih =>
      intro d d2 m hlast hch hub h
      rw [List.replicate_succ] at h
      unfold appendLoop at h
      rw [List.foldlM_cons] at h
      obtain ⟨d1, h1, h2⟩ := bind_ok_inv h
      rw [hlast] at h1
      simp only [liftO_some, ok_bind] at h1
      obtain ⟨v, hv, h3⟩ := bind_ok_inv h1
      obtain ⟨top, htop, hvp⟩ := downStep_pool_inv d v hv
      have htm : top = m := by
        rw [hlast] at htop
        exact (Option.some.inj htop).symm
      have hvc : v.channels = outC := by
        rw [hvp, maxPool_channels, htm]
        exact hch
      have hd1 : d1 = dictInsert d (m.1 + 1) v := (Except.ok.inj h3).symm
      have hfresh : (m.1 + 1) ∉ keysOf d := by
        intro hm
        obtain ⟨kv, hkv, he⟩ := List.mem_map.mp hm
        have := hub kv hkv
        omega
      rw [dictInsert_fresh d _ v hfresh] at hd1
      have hlast1 : d1.getLast? = some (m.1 + 1, v) := by
        rw [hd1]
        exact List.getLast?_concat d
      have hub1 : ∀ kv ∈ d1, kv.1 ≤ m.1 + 1 := by
        intro kv hkv
        rw [hd1] at hkv
        rcases List.mem_append.mp hkv with hk | hk
        · have := hub kv hk
          omega
        · have : kv = (m.1 + 1, v) := by simpa using hk
          rw [this]
      obtain ⟨app1, m2, happ1, hkeys1, hch1, hlast2, hch2, hm2, hub2⟩ :=
        ih d1 d2 (m.1 + 1, v) hlast1 hvc hub1 h2
      refine ⟨(m.1 + 1, v) :: app1, m2, ?_, ?_, ?_, hlast2, hch2, by omega, ?_⟩
      · rw [happ1, hd1, List.append_assoc]
        rfl
      · show (m.1 + 1) :: keysOf app1 = intRange (m.1 + 1) (k + 1)
        rw [hkeys1, intRange_succ]
      · intro kv hkv
        rcases List.mem_cons.mp hkv with hk | hk
        · rw [hk]
          exact hvc
        · exact hch1 kv hk
      · intro kv hkv
        have := hub2 kv hkv
        omega

theorem downsample_fold_structure (outC : Nat) (c : Conv1x1) (hc : c.outC = outC) (k : Nat)
    (d d2 : FMap) (m : Int × FeatureMap)
    (hlast : d.getLast? = some m) (hub : ∀ kv ∈ d, kv.1 ≤ m.1)
    (h : appendLoop downStep d (DownLayer.convPool c :: List.replicate k DownLayer.pool) =
      Except.ok d2) :
    ∃ app m2, d2 = d ++ app ∧ keysOf app = intRange (m.1 + 1) (k + 1) ∧
      (∀ kv ∈ app, kv.2.channels = outC) ∧
      d2.getLast? = some m2 ∧ m2.1 = m.1 + (k + 1) ∧
      (∀ kv ∈ d2, kv.1 ≤ m.1 + (k + 1)) := by
  unfold appendLoop at h
  rw [List.foldlM_cons] at h
  obtain ⟨d1, h1, h2⟩ := bind_ok_inv h
  rw [hlast] at h1
  simp only [liftO_some, ok_bind] at h1
  obtain ⟨v, hv, h3⟩ := bind_ok_inv h1
  have hvc : v.channels = outC := by
    rw [downStep_convPool_channels c d v hv]
    exact hc
  have hd1 : d1 = dictInsert d (m.1 + 1) v := (Except.ok.inj h3).symm
  have hfresh : (m.1 + 1) ∉ keysOf d := by
    intro hm
    obtain ⟨kv, hkv, he⟩ := List.mem_map.mp hm
    have := hub kv hkv
    omega
  rw [dictInsert_fresh d _ v hfresh] at hd1
  have hlast1 : d1.getLast? = some (m.1 + 1, v) := by
    rw [hd1]
    exact List.getLast?_concat d
  have hub1 : ∀ kv ∈ d1, kv.1 ≤ m.1 + 1 := by
    intro kv hkv
    rw [hd1] at hkv
    rcases List.mem_append.mp hkv with hk | hk
    · have := hub kv hk
      omega
    · have : kv = (m.1 + 1, v) := by simpa using hk
      rw [this]
  obtain ⟨app1, m2, happ1, hkeys1, hch1, hlast2, hch2, hm2, hub2⟩ :=
    pool_fold_channels outC k d1 d2 (m.1 + 1, v) hlast1 hvc hub1 h2
  refine ⟨(m.1 + 1, v) :: app1, m2, ?_, ?_, ?_, hlast2, by omega, ?_⟩
  · rw [happ1, hd1, List.append_assoc]
    rfl
  · show (m.1 + 1) :: keysOf app1 = intRange (m.1 + 1) (k + 1)
    rw [hkeys1, intRange_succ]
  · intro kv hkv
    rcases List.mem_cons.mp hkv with hk | hk
    · rw [hk]
      exact hvc
    · exact hch1 kv hk
  · intro kv hkv
    have := hub2 kv hkv
    omega

theorem trimAndRekey_eq (off : Int) (n : Nat) (x : FMap) :
    trimAndRekey off n x = rekeyFrom off (x.drop (x.length - n)) := by
  unfold trimAndRekey
  rw [show (x.enum : List (Nat × (Int × FeatureMap))) = List.enumFrom 0 x from rfl]
  rw [trimGo_enumFrom_eq off (x.length - n) x 0 [] rfl]
  simp

theorem trimAndRekey_keys (off : Int) (n : Nat) (x : FMap) :
    keysOf (trimAndRekey off n x) = intRange off (min n x.length) := by
  rw [trimAndRekey_eq, rekeyFrom_keys]
  congr 1
  rw [List.length_drop]
  omega

theorem trimAndRekey_values (off : Int) (n : Nat) (x : FMap) :
    (trimAndRekey off n x).map Prod.snd = (x.drop (x.length - n)).map Prod.snd := by
  rw [trimAndRekey_eq, rekeyFrom_values]

theorem head_of_keys (d : List (Int × FeatureMap)) (a : Int) (t : List Int)
    (h : keysOf d = a :: t) : ∃ f0, d.head? = some f0 ∧ f0.1 = a := by
  cases d with
  | nil => cases h
  | cons kv r =>
      refine ⟨kv, rfl, ?_⟩
      have : kv.1 :: keysOf r = a :: t := h
      exact (List.cons.inj this).1

theorem getLast_of_keys (d : List (Int × FeatureMap)) (j : Int)
    (h : (keysOf d).getLast? = some j) : ∃ m, d.getLast? = some m ∧ m.1 = j := by
  rw [keysOf, List.getLast?_map] at h
  cases hd : d.getLast? with
  | none =>
      rw [hd] at h
      cases h
  | some m =>
      rw [hd] at h
      exact ⟨m, rfl, Option.some.inj h⟩

theorem intRange_getLast (a : Int) (n : Nat) : (intRange a (n + 1)).getLast? = some (a + n) := by
  rw [← intRange_append_one]
  exact List.getLast?_concat _

theorem ub_of_keys_intRange (d : FMap) (a : Int) (n : Nat)
    (h : keysOf d = intRange a (n + 1)) : ∀ kv ∈ d, kv.1 ≤ a + n := by
  intro kv hkv
  have hm : kv.1 ∈ keysOf d := List.mem_map.2 ⟨kv, hkv, rfl⟩
  rw [h] at hm
  have := mem_intRange hm
  omega

theorem head?_append_of_some {α : Type} (l1 l2 : List α) (a : α)
    (h : l1.head? = some a) : (l1 ++ l2).head? = some a := by
  cases l1 with
  | nil => cases h
  | cons x t => exact h

theorem blockCall_ok_inv (b : BiFPNBlock) (x x2 ret : FMap) (f0 m : Int × FeatureMap)
    (hhead : x.head? = some f0)
    (hlast : x.getLast? = some m)
    (hub : ∀ kv ∈ x, kv.1 ≤ m.1)
    (h : blockCall b x = Except.ok (x2, ret)) :
    ∃ app, x2 = x ++ app ∧
      keysOf app = intRange (m.1 + 1) (b.combines.zip b.post_combines).length ∧
      (∀ kv ∈ app, ∃ dcur cp, cp ∈ b.combines.zip b.post_combines ∧
        nodeStep b.act dcur cp = Except.ok kv.2) ∧
      ret = trimAndRekey f0.1 b.num_levels x2 := by
  unfold blockCall at h
  rw [hhead] at h
  simp only [liftO_some, ok_bind] at h
  obtain ⟨x2b, hx2, h2⟩ := bind_ok_inv h
  have hpair : (x2b, trimAndRekey f0.1 b.num_levels x2b) = (x2, ret) := Except.ok.inj h2
  have he1 : x2b = x2 := congrArg Prod.fst hpair
  have he2 : trimAndRekey f0.1 b.num_levels x2b = ret := congrArg Prod.snd hpair
  obtain ⟨app, happ, hkeys, hprov, _, _⟩ :=
    appendLoop_ok_structure (nodeStep b.act) (b.combines.zip b.post_combines) x x2b m hlast hub hx2
  refine ⟨app, ?_, (by rw [hkeys]), hprov, ?_⟩
  · rw [← he1]
    exact happ
  · rw [← he2, he1]

theorem bifpnCall_ok_inv (b : BiFPN) (input mfinal out : FMap)
    (h : bifpnCall b input = Except.ok (mfinal, out)) :
    ∃ ds fm, b.downsample_convs = some ds ∧
      appendLoop downStep input ds = Except.ok fm ∧
      runBlocks b.bifp_layers fm = Except.ok (mfinal, out) := by
  unfold bifpnCall at h
  obtain ⟨ds, h1, h2⟩ := bind_ok_inv h
  obtain ⟨fm, h3, h4⟩ := bind_ok_inv h2
  exact ⟨ds, fm, liftO_ok_inv h1, h3, h4⟩

theorem bifpnInit_ok_inv (act : ℚ → ℚ) (in_ch : List Nat) (outC nb hh : Nat)
    (levels : List Int) (st : BiFPN)
    (hok : bifpnInit act in_ch outC nb hh levels = Except.ok st) :
    st.bifpn_height = hh ∧
    ((hh = levels.length → st.downsample_convs = none) ∧
     (hh ≠ levels.length → ∃ c : Conv1x1, c.outC = outC ∧
        st.downsample_convs = some (DownLayer.convPool c ::
          List.replicate (hh - levels.length - 1) DownLayer.pool))) ∧
    ∃ chd : List (Int × Nat), st.bifp_layers = (List.range nb).map (fun idx =>
      blockInit act outC hh (if idx = 0 then chd else levels.map (fun l => (l, outC)))) := by
  unfold bifpnInit at hok
  by_cases hne : hh ≠ levels.length
  · rw [if_pos hne] at hok
    obtain ⟨lastC, _, hok2⟩ := bind_ok_inv hok
    obtain ⟨downs, hd2, hok3⟩ := bind_ok_inv hok2
    have hdowns : downs = some (DownLayer.convPool ⟨lastC, outC, fun _ _ => 1, fun _ => 0⟩ ::
        List.replicate (hh - levels.length - 1) DownLayer.pool) := (Except.ok.inj hd2).symm
    obtain ⟨chd, _, hok4⟩ := bind_ok_inv hok3
    obtain rfl := (Except.ok.inj hok4).symm
    exact ⟨rfl, ⟨fun he => absurd he hne,
      fun _ => ⟨⟨lastC, outC, fun _ _ => 1, fun _ => 0⟩, rfl, hdowns⟩⟩, ⟨chd, rfl⟩⟩
  · rw [if_neg hne] at hok
    obtain ⟨downs, hd2, hok3⟩ := bind_ok_inv hok
    have hdowns : downs = none := (Except.ok.inj hd2).symm
    obtain ⟨chd, _, hok4⟩ := bind_ok_inv hok3
    obtain rfl := (Except.ok.inj hok4).symm
    exact ⟨rfl, ⟨fun _ => hdowns, fun he => absurd (by push_neg at hne; exact hne) he⟩,
      ⟨chd, rfl⟩⟩

/-! ### Structure of the combiner -/

theorem stackSum_ok_data (terms : List FeatureMap) (out : FeatureMap)
    (h : stackSum terms = Except.ok out) :
    ∀ c y z, out.data c y z = (terms.map (fun f => f.data c y z)).sum := by
  cases terms with
  | nil => simp [stackSum] at h
  | cons f t =>
      simp only [stackSum] at h
      by_cases hs : (t.all fun g => decide (shapeOf g = shapeOf f)) = true
      · rw [if_pos hs] at h
        have he := Except.ok.inj h
        intro c y z
        rw [← he]
      · rw [if_neg hs] at h
        cases h

theorem sum_map_add_const (e : ℚ) :
    ∀ l : List ℚ, (l.map (fun w => w + e)).sum = l.sum + l.length * e := by
  intro l
  induction l with
  | nil => simp
  | cons w t ih =>
      simp only [List.map_cons, List.sum_cons, List.length_cons, ih]
      push_cast
      ring

theorem sum_map_div (D : ℚ) :
    ∀ l : List ℚ, (l.map (fun w => w / D)).sum = l.sum / D := by
  intro l
  induction l with
  | nil => simp
  | cons w t ih => simp [ih, add_div]

theorem combineDenom_eq (cl : CombineLevels) :
    combineDenom cl = (reluWeights cl).sum + (cl.weights.length : ℚ) * cl.eps := by
  unfold combineDenom
  rw [sum_map_add_const]
  simp [reluWeights]

theorem reluWeights_nonneg (cl : CombineLevels) : ∀ w ∈ reluWeights cl, 0 ≤ w := by
  intro w hw
  obtain ⟨w0, _, he⟩ := List.mem_map.mp hw
  rw [← he]
  exact le_max_right w0 0

theorem combineCall_ok_inv (cl : CombineLevels) (x : FMap) (out : FeatureMap)
    (h : combineCall cl x = Except.ok out) :
    ∃ nodes terms, gatherNodes cl x = Except.ok nodes ∧
      cl.offsets.enum.mapM (fun p => do
        let v ← liftO "KeyError" (alookup p.2 nodes)
        let w ← liftO "IndexError" ((reluWeights cl).get? p.1)
        pure (fmScale (w / combineDenom cl) v)) = Except.ok terms ∧
      stackSum terms = Except.ok out := by
  unfold combineCall at h
  obtain ⟨nodes, h1, h2⟩ := bind_ok_inv h
  obtain ⟨terms, h3, h4⟩ := bind_ok_inv h2
  exact ⟨nodes, terms, h1, h3, h4⟩

theorem gatherNodes_ok_inv (cl : CombineLevels) (x : FMap) (nodes : FMap)
    (h : gatherNodes cl x = Except.ok nodes) :
    ∃ mx loopnodes vmx, cl.offsets.max? = some mx ∧
      x.foldlM (gatherStep cl mx) [] = Except.ok loopnodes ∧
      alookup mx x = some vmx ∧
      nodes = dictInsert loopnodes mx (resampleApply cl vmx) := by
  unfold gatherNodes at h
  obtain ⟨mx, hmx, h2⟩ := bind_ok_inv h
  obtain ⟨ln, hln, h3⟩ := bind_ok_inv h2
  obtain ⟨vmx, hvmx, h4⟩ := bind_ok_inv h3
  exact ⟨mx, ln, vmx, liftO_ok_inv hmx, hln, liftO_ok_inv hvmx, (Except.ok.inj h4).symm⟩

theorem offsets_ne_nil_of_max {cl : CombineLevels} {mx : Int}
    (h : cl.offsets.max? = some mx) : cl.offsets ≠ [] := by
  intro he
  rw [he] at h
  simp [List.max?] at h

theorem gatherStep_keys (cl : CombineLevels) (mx : Int) (nodes n1 : FMap)
    (kv : Int × FeatureMap) (h : gatherStep cl mx nodes kv = Except.ok n1) :
    ∀ j ∈ keysOf n1, j ∈ keysOf nodes ∨ j = kv.1 := by
  unfold gatherStep at h
  cases hl : cl.lateral with
  | none =>
      rw [hl] at h
      simp only [gatherStepAux] at h
      by_cases hc : kv.1 ∈ cl.offsets ∧ kv.1 ≠ mx
      · rw [if_pos hc] at h
        have he := Except.ok.inj h
        intro j hj
        rw [← he] at hj
        exact keys_dictInsert_subset _ _ _ _ hj
      · rw [if_neg hc] at h
        have he := Except.ok.inj h
        intro j hj
        rw [← he] at hj
        exact Or.inl hj
  | some lat =>
      rw [hl] at h
      simp only [gatherStepAux] at h
      by_cases hkl : kv.1 = lat.1
      · rw [if_pos hkl] at h
        obtain ⟨v, _, h2⟩ := bind_ok_inv h
        have he := Except.ok.inj h2
        intro j hj
        rw [← he] at hj
        exact keys_dictInsert_subset _ _ _ _ hj
      · rw [if_neg hkl] at h
        by_cases hc : kv.1 ∈ cl.offsets ∧ kv.1 ≠ mx
        · rw [if_pos hc] at h
          have he := Except.ok.inj h
          intro j hj
          rw [← he] at hj
          exact keys_dictInsert_subset _ _ _ _ hj
        · rw [if_neg hc] at h
          have he := Except.ok.inj h
          intro j hj
          rw [← he] at hj
          exact Or.inl hj

theorem gatherLoop_keys (cl : CombineLevels) (mx : Int) :
    ∀ (l : List (Int × FeatureMap)) (n nodes : FMap),
      l.foldlM (gatherStep cl mx) n = Except.ok nodes →
      ∀ j ∈ keysOf nodes, j ∈ keysOf n ∨ j ∈ keysOf l := by
  intro l
  induction l with
  | nil =>
      intro n nodes h j hj
      have he : n = nodes := Except.ok.inj h
      rw [← he] at hj
      exact Or.inl hj
  | cons kv t ih =>
      intro n nodes h j hj
      rw [List.foldlM_cons] at h
      obtain ⟨n1, hn1, h2⟩ := bind_ok_inv h
      rcases ih n1 nodes h2 j hj with hj1 | hj1
      · rcases gatherStep_keys cl mx n n1 kv hn1 j hj1 with hj2 | hj2
        · exact Or.inl hj2
        · exact Or.inr (by simp [keysOf, hj2])
      · exact Or.inr (by simp only [keysOf, List.map_cons, List.mem_cons]; exact Or.inr hj1)

theorem termsM_enumFrom_eq (nodes : FMap) (den : ℚ) (ws : List ℚ) :
    ∀ (offs : List Int) (k : Nat), k + offs.length ≤ ws.length →
    ((List.enumFrom k offs).mapM (fun p => do
        let v ← liftO "KeyError" (alookup p.2 nodes)
        let w ← liftO "IndexError" (ws.get? p.1)
        pure (fmScale (w / den) v)) : Except String (List FeatureMap)) =
    ((offs.zip (ws.drop k)).mapM (fun p => do
        let v ← liftO "KeyError" (alookup p.1 nodes)
        pure (fmScale (p.2 / den) v)) : Except String (List FeatureMap)) := by
  intro offs
  induction offs with
  | nil => intro k _; rfl
  | cons o t ih =>
      intro k hk
      have hklt : k < ws.length := by
        simp only [List.length_cons] at hk
        omega
      have hget : ws.get? k = some (ws.get ⟨k, hklt⟩) := List.get?_eq_get hklt
      have hdrop : ws.drop k = ws.get ⟨k, hklt⟩ :: ws.drop (k + 1) := by
        rw [List.drop_eq_getElem_cons hklt]
        rfl
      have hcons : List.enumFrom k (o :: t) = (k, o) :: List.enumFrom (k + 1) t := rfl
      rw [hcons, hdrop, List.zip_cons_cons, List.mapM_cons, List.mapM_cons]
      have hhead :
          (do
            let v ← liftO "KeyError" (alookup o nodes)
            let w ← liftO "IndexError" (ws.get? k)
            pure (fmScale (w / den) v) : Except String FeatureMap) =
          (do
            let v ← liftO "KeyError" (alookup o nodes)
            pure (fmScale (ws.get ⟨k, hklt⟩ / den) v) : Except String FeatureMap) := by
        rw [hget]
        cases alookup o nodes <;> rfl
      rw [hhead, ih (k + 1) (by simp only [List.length_cons] at hk; omega)]

/-- C1. The claim states that with bifpn_height = len(levels) the
PyramidExpander is skipped and a forward call still succeeds, returning
bifpn_height levels. Construction indeed skips the expander (the
downsample_convs attribute is never assigned), but precisely because of that
the forward call crashes: BiFPN.__call__ unconditionally iterates
self.downsample_convs, which raises AttributeError. The spec describes the
evident intent; the code is a slip. -/
theorem c1_exact_height_forward_raises :
    c1Run = Except.error "AttributeError: downsample_convs" := rfl

/-- C2 counterexample. The claim states that bifpn_height=2 with
levels=[3,4,5] raises a ConfigurationError at construction. The constructor
contains no validation at all and returns normally on exactly this input. -/
theorem c2_counterexample :
    (bifpnInit actId [40, 80, 160] 64 1 2 [3, 4, 5]).isOk = true := rfl

/-- C2 amended: constructing with bifpn_height=2 and levels=[3,4,5] raises
no error; the negative downsample count simply yields an empty range, so the
expander gets exactly one conv+pool layer and construction completes with
one fusion block. -/
theorem c2_construction_succeeds :
    ∃ st, bifpnInit actId [40, 80, 160] 64 1 2 [3, 4, 5] = Except.ok st ∧
      st.downsample_convs.map List.length = some 1 ∧ st.bifp_layers.length = 1 :=
  ⟨((bifpnInit actId [40, 80, 160] 64 1 2 [3, 4, 5]).toOption.getD ⟨[], 0, [], none, []⟩),
    rfl, rfl, rfl⟩

/-- C3 counterexample. After one forward call on the concrete configuration
in_channels=[8,16,32], levels=[3,4,5], out_channels=8, bifpn_height=5, the
caller's mapping holds keys 3..15 (its three original levels, the two
synthesized expander levels and the eight intermediate fusion nodes appended
in place), not the original key set {3,4,5}: the call mutates the argument
mapping. -/
theorem c3_counterexample :
    c3Run.map (fun p => keysOf p.1) =
      Except.ok [3, 4, 5, 6, 7, 8, 9, 10, 11, 12, 13, 14, 15] ∧
    ([3, 4, 5, 6, 7, 8, 9, 10, 11, 12, 13, 14, 15] : List Int) ≠ [3, 4, 5] :=
  ⟨rfl, by decide⟩

/-- C4 counterexample. For a two-input node with raw weights (1, 1) and
all-ones inputs, the source computes 2 / (2 + 2e-4) = 10000/10001 per pixel
(epsilon is added to every rectified weight before summing), while the
claimed formula with a single epsilon gives 2 / (2 + 1e-4) = 20000/20001. -/
theorem c4_counterexample :
    (combineCall c4cl c4x).map (fun f => f.data 0 0 0) = Except.ok (10000 / 10001) ∧
    specSingleEpsCombine c4cl [1, 1] = 20000 / 20001 ∧
    (10000 / 10001 : ℚ) ≠ 20000 / 20001 := by
  refine ⟨?_, ?_, by norm_num⟩
  · show Except.ok _ = _
    norm_num [Except.ok.injEq, max_def, fmScale, fmOf, resampleApply, upsampleApply,
      combineDenom, reluWeights, c4cl]
  · norm_num [specSingleEpsCombine, reluWeights, c4cl, max_def]

/-- C5 counterexample. The claim states that unresolvable input offsets fail
construction-time validation. Constructing a block with num_levels=10 over
three declared levels resolves the first node's offsets to [11, 12] — levels
that can never be present — yet construction completes normally, and the
mismatch only surfaces as a KeyError when the block is called. -/
theorem c5_counterexample :
    (c5Block.combines.head?.map (fun c => c.offsets)) = some [11, 12] ∧
    blockCall c5Block c5Input = Except.error "KeyError" :=
  ⟨rfl, rfl⟩

/-- C6 counterexample. bifpn_height = len(levels) = 3 is a valid
configuration (the spec only requires bifpn_height not below the input level
count), yet the forward call raises instead of producing a mapping of
bifpn_height levels, because downsample_convs is never assigned in this
case. -/
theorem c6_counterexample : c6Run.isOk = false := rfl

/-- C7. The concrete scenario: in_channels=[40,80,160], levels=[3,4,5],
out_channels=64, bifpn_height=5, num_bifpns=1, inputs of shapes (40,64,64),
(80,32,32), (160,16,16) with arbitrary data. The expander synthesizes
6:(64,8,8) and 7:(64,4,4) (visible in the mutated mapping, alongside the
eight node outputs 8..15), and the output holds keys 3..7 with 64 channels
and spatial sizes 64, 32, 16, 8, 4. -/
theorem c7_concrete_scenario :
    ((do
      let st ← bifpnInit actId [40, 80, 160] 64 1 5 [3, 4, 5]
      bifpnCall st [(3, fmConst 40 64 64), (4, fmConst 80 32 32), (5, fmConst 160 16 16)]) :
        Except String (FMap × FMap)).map
      (fun p => (p.1.map (fun kv => (kv.1, shapeOf kv.2)),
                 p.2.map (fun kv => (kv.1, shapeOf kv.2)))) =
    Except.ok
      ([(3, (40, 64, 64)), (4, (80, 32, 32)), (5, (160, 16, 16)),
        (6, (64, 8, 8)), (7, (64, 4, 4)),
        (8, (64, 8, 8)), (9, (64, 16, 16)), (10, (64, 32, 32)), (11, (64, 64, 64)),
        (12, (64, 32, 32)), (13, (64, 16, 16)), (14, (64, 8, 8)), (15, (64, 4, 4))],
       [(3, (64, 64, 64)), (4, (64, 32, 32)), (5, (64, 16, 16)),
        (6, (64, 8, 8)), (7, (64, 4, 4))]) := rfl

/-- C4 amended: the combiner output is the weighted sum of the gathered
inputs with weights relu(w_i), normalized by sum(relu(w_j)) + n * 1e-4 where
n is the number of inputs of the node — the code adds epsilon to every
rectified weight before summing, so n epsilons accumulate, not one. The
effective weights are all non-negative, and the normalized weights sum to
1 minus n*eps / denominator, a term vanishing as eps goes to 0. -/
theorem c4_amended_formula (cl : CombineLevels) (x : FMap) (out : FeatureMap)
    (heps : 0 < cl.eps)
    (hlen : cl.weights.length = cl.offsets.length)
    (hok : combineCall cl x = Except.ok out) :
    (∀ w ∈ reluWeights cl, 0 ≤ w) ∧
    combineDenom cl = (reluWeights cl).sum + (cl.offsets.length : ℚ) * cl.eps ∧
    0 < combineDenom cl ∧
    (∃ nodes, gatherNodes cl x = Except.ok nodes ∧
      ∀ c y z, out.data c y z =
        ((cl.offsets.zip (reluWeights cl)).map
          (fun p => ((alookup p.1 nodes).getD fmZero).data c y z *
            (p.2 / combineDenom cl))).sum) ∧
    ((reluWeights cl).map (fun w => w / combineDenom cl)).sum =
      1 - ((cl.offsets.length : ℚ) * cl.eps) / combineDenom cl := by
  have hrlen : (reluWeights cl).length = cl.offsets.length := by
    simp [reluWeights, hlen]
  have hdenom : combineDenom cl = (reluWeights cl).sum + (cl.offsets.length : ℚ) * cl.eps := by
    rw [combineDenom_eq, hlen]
  obtain ⟨nodes, terms, h1, h3, h4⟩ := combineCall_ok_inv cl x out hok
  obtain ⟨mx, loopn, vmx, hmx, _, _, _⟩ := gatherNodes_ok_inv cl x nodes h1
  have hne := offsets_ne_nil_of_max hmx
  have hpos1 : (1 : ℚ) ≤ (cl.offsets.length : ℚ) := by
    have h0 : 1 ≤ cl.offsets.length := List.length_pos.mpr hne
    exact_mod_cast h0
  have hS : 0 ≤ (reluWeights cl).sum := List.sum_nonneg (reluWeights_nonneg cl)
  have hD : 0 < combineDenom cl := by
    rw [hdenom]
    have h0 : 0 < (cl.offsets.length : ℚ) * cl.eps :=
      mul_pos (lt_of_lt_of_le one_pos hpos1) heps
    linarith
  refine ⟨reluWeights_nonneg cl, hdenom, hD, ⟨nodes, h1, ?_⟩, ?_⟩
  · rw [show cl.offsets.enum = List.enumFrom 0 cl.offsets from rfl] at h3
    rw [termsM_enumFrom_eq nodes (combineDenom cl) (reluWeights cl) cl.offsets 0
      (by rw [hrlen]; omega), List.drop_zero] at h3
    have hall : ∀ p ∈ cl.offsets.zip (reluWeights cl),
        ((do
          let v ← liftO "KeyError" (alookup p.1 nodes)
          pure (fmScale (p.2 / combineDenom cl) v)) : Except String FeatureMap) =
        Except.ok (fmScale (p.2 / combineDenom cl) ((alookup p.1 nodes).getD fmZero)) := by
      intro p hp
      obtain ⟨b, hb⟩ := mapM_ok_forall _ _ _ h3 p hp
      obtain ⟨v, hv, _⟩ := bind_ok_inv hb
      have hvs := liftO_ok_inv hv
      rw [hvs]
      simp [hvs]
    have hterms := mapM_ok_map _
      (fun p => fmScale (p.2 / combineDenom cl) ((alookup p.1 nodes).getD fmZero)) _ _ h3 hall
    intro c y z
    rw [stackSum_ok_data terms out h4 c y z, hterms, List.map_map]
    rfl
  · rw [sum_map_div, hdenom, eq_sub_iff_add_eq, div_add_div_same,
      div_self (by linarith : (reluWeights cl).sum + (cl.offsets.length : ℚ) * cl.eps ≠ 0)]

/-- C4 witness: the amended formula theorem applied to the concrete
two-input node with weights (1, 1) and all-ones inputs. -/
theorem c4_witness :
    (∀ w ∈ reluWeights c4cl, 0 ≤ w) ∧
    combineDenom c4cl = (reluWeights c4cl).sum + (c4cl.offsets.length : ℚ) * c4cl.eps ∧
    0 < combineDenom c4cl ∧
    (∃ nodes, gatherNodes c4cl c4x = Except.ok nodes ∧
      ∀ c y z, c4out.data c y z =
        ((c4cl.offsets.zip (reluWeights c4cl)).map
          (fun p => ((alookup p.1 nodes).getD fmZero).data c y z *
            (p.2 / combineDenom c4cl))).sum) ∧
    ((reluWeights c4cl).map (fun w => w / combineDenom c4cl)).sum =
      1 - ((c4cl.offsets.length : ℚ) * c4cl.eps) / combineDenom c4cl :=
  c4_amended_formula c4cl c4x c4out (by norm_num [c4cl]) rfl rfl

/-- C5 amended: offset resolution is not validated at construction; a
resolved offset missing from the mapping at evaluation time makes
CombineLevels.__call__ raise (a KeyError — either at the resample lookup
when the maximum offset is missing, or at the combination lookup for a
non-maximal offset, which the gathering loop silently skipped) rather than
succeed; it is a call-time failure, not a construction-time one. -/
theorem c5_amended_runtime_keyerror (cl : CombineLevels) (x : FMap)
    (h : ∃ o ∈ cl.offsets, alookup o x = none) :
    (combineCall cl x).isOk = false := by
  obtain ⟨o, ho, hnone⟩ := h
  cases hcc : combineCall cl x with
  | error e => rfl
  | ok out =>
      exfalso
      obtain ⟨nodes, terms, h1, h3, _⟩ := combineCall_ok_inv cl x out hcc
      obtain ⟨mx, loopn, vmx, hmx, hloop, hvmx, hnodes⟩ := gatherNodes_ok_inv cl x nodes h1
      have homx : o ≠ mx := by
        intro he
        rw [he, hvmx] at hnone
        cases hnone
      have hox : o ∉ keysOf x := by
        intro hm
        have hs := alookup_isSome_of_mem x o hm
        rw [hnone] at hs
        simp at hs
      obtain ⟨i, hi⟩ := exists_enumFrom_pair cl.offsets 0 o ho
      rw [show cl.offsets.enum = List.enumFrom 0 cl.offsets from rfl] at h3
      obtain ⟨b, hb⟩ := mapM_ok_forall _ _ _ h3 (i, o) hi
      obtain ⟨v, hv, _⟩ := bind_ok_inv hb
      have hvs := liftO_ok_inv hv
      have honodes : o ∉ keysOf nodes := by
        rw [hnodes]
        intro hm
        rcases keys_dictInsert_subset _ _ _ _ hm with hm2 | hm2
        · rcases gatherLoop_keys cl mx x [] loopn hloop o hm2 with h0 | h0
          · cases h0
          · exact hox h0
        · exact homx hm2
      rw [alookup_eq_none_of_not_mem _ _ honodes] at hvs
      cases hvs

/-- C5 witness: the amended theorem applied to a source-constructed node
with offsets [3, 4] and an input mapping that lacks key 4. -/
theorem c5_witness : (combineCall c5wcl c5wx).isOk = false :=
  c5_amended_runtime_keyerror c5wcl c5wx ⟨4, by decide, rfl⟩

/-- C9. The normalization denominator of CombineLevels.__call__ equals the
sum over the inputs of (relu(w_j) + 1e-4), which is at least n * 1e-4 and
strictly positive for n at least 1 raw weights: no division by zero is
possible. When every raw weight is non-positive, all rectified weights are
zero and any successful call returns the all-zero feature map. -/
theorem c9_no_div_by_zero (cl : CombineLevels) (x : FMap)
    (heps : cl.eps = 1 / 10000) (hn : 1 ≤ cl.weights.length) :
    0 < combineDenom cl ∧
    (cl.weights.length : ℚ) * (1 / 10000) ≤ combineDenom cl ∧
    ((∀ w ∈ cl.weights, w ≤ 0) → ∀ out, combineCall cl x = Except.ok out →
      ∀ c y z, out.data c y z = 0) := by
  have hS : 0 ≤ (reluWeights cl).sum := List.sum_nonneg (reluWeights_nonneg cl)
  have hden := combineDenom_eq cl
  have hnq : (1 : ℚ) ≤ (cl.weights.length : ℚ) := by exact_mod_cast hn
  refine ⟨?_, ?_, ?_⟩
  · rw [hden, heps]
    have h0 : 0 < (cl.weights.length : ℚ) * (1 / 10000) :=
      mul_pos (lt_of_lt_of_le one_pos hnq) (by norm_num)
    linarith
  · rw [hden, heps]
    linarith
  · intro hw out hok c y z
    obtain ⟨nodes, terms, h1, h3, h4⟩ := combineCall_ok_inv cl x out hok
    rw [stackSum_ok_data terms out h4 c y z]
    apply List.sum_eq_zero
    intro q hq
    obtain ⟨b, hb, hbq⟩ := List.mem_map.mp hq
    obtain ⟨p, hp, hfp⟩ := mapM_ok_mem _ _ _ h3 b hb
    obtain ⟨v, hv, h5⟩ := bind_ok_inv hfp
    obtain ⟨w, hwg, h6⟩ := bind_ok_inv h5
    have hwo := liftO_ok_inv hwg
    have hwm : w ∈ reluWeights cl := List.get?_mem hwo
    obtain ⟨w0, hw0, hwe⟩ := List.mem_map.mp hwm
    have hw00 : w = 0 := by
      rw [← hwe]
      exact max_eq_right (hw w0 hw0)
    have hb2 : b = fmScale (w / combineDenom cl) v := (Except.ok.inj h6).symm
    rw [← hbq, hb2, hw00]
    simp [fmScale]

/-- C9 witness: the theorem applied to a one-input node whose raw weight is
-1, on an input where the call succeeds. -/
theorem c9_witness :
    0 < combineDenom c9cl ∧
    (c9cl.weights.length : ℚ) * (1 / 10000) ≤ combineDenom c9cl ∧
    ((∀ w ∈ c9cl.weights, w ≤ 0) → ∀ out, combineCall c9cl c9x = Except.ok out →
      ∀ c y z, out.data c y z = 0) :=
  c9_no_div_by_zero c9cl c9x rfl (by decide)

theorem gatherLoop_pair (cl : CombineLevels) (mx : Int) (conv : Conv1x1)
    (hlat : cl.lateral = some (mx, conv)) :
    ∀ (l : List (Int × FeatureMap)),
      (∀ kv ∈ l, kv.1 = mx → kv.2.channels = conv.inC) →
      ∀ (nL nN : FMap),
        (∀ k, k ≠ mx → alookup k nL = alookup k nN) →
        alookup mx nN = none →
        ∃ nL2 nN2,
          l.foldlM (gatherStep cl mx) nL = Except.ok nL2 ∧
          l.foldlM (gatherStep { cl with lateral := none } mx) nN = Except.ok nN2 ∧
          (∀ k, k ≠ mx → alookup k nL2 = alookup k nN2) ∧
          alookup mx nN2 = none := by
  intro l
  induction l with
  | nil =>
      intro _ nL nN h1 h2
      exact ⟨nL, nN, rfl, rfl, h1, h2⟩
  | cons kv t ih =>
      intro hch nL nN h1 h2
      have hcht : ∀ kv2 ∈ t, kv2.1 = mx → kv2.2.channels = conv.inC :=
        fun kv2 hm => hch kv2 (List.mem_cons_of_mem kv hm)
      by_cases hkm : kv.1 = mx
      · have hchn : kv.2.channels = conv.inC := hch kv (List.mem_cons_self kv t) hkm
        obtain ⟨cv, hcv⟩ : ∃ cv, conv1x1Apply conv kv.2 = Except.ok cv := by
          unfold conv1x1Apply
          rw [if_pos hchn]
          exact ⟨_, rfl⟩
        have hstepL : gatherStep cl mx nL kv = Except.ok (dictInsert nL kv.1 cv) := by
          unfold gatherStep
          rw [hlat]
          simp only [gatherStepAux]
          rw [if_pos (show kv.1 = (mx, conv).1 from hkm), hcv]
          rfl
        have hstepN : gatherStep { cl with lateral := none } mx nN kv = Except.ok nN := by
          unfold gatherStep
          rw [show ({ cl with lateral := none } : CombineLevels).lateral = none from rfl]
          simp only [gatherStepAux]
          rw [if_neg (fun hc => hc.2 hkm)]
          rfl
        have h1n : ∀ k, k ≠ mx → alookup k (dictInsert nL kv.1 cv) = alookup k nN := by
          intro k hk
          rw [hkm, alookup_dictInsert_ne nL mx k cv hk]
          exact h1 k hk
        simp only [List.foldlM_cons, hstepL, hstepN, ok_bind]
        exact ih hcht (dictInsert nL kv.1 cv) nN h1n h2
      · have hoff : ({ cl with lateral := none } : CombineLevels).offsets = cl.offsets := rfl
        by_cases hc : kv.1 ∈ cl.offsets ∧ kv.1 ≠ mx
        · have hstepL : gatherStep cl mx nL kv = Except.ok (dictInsert nL kv.1 kv.2) := by
            unfold gatherStep
            rw [hlat]
            simp only [gatherStepAux]
            rw [if_neg (show ¬ kv.1 = (mx, conv).1 from hkm), if_pos hc]
            rfl
          have hstepN : gatherStep { cl with lateral := none } mx nN kv =
              Except.ok (dictInsert nN kv.1 kv.2) := by
            unfold gatherStep
            rw [show ({ cl with lateral := none } : CombineLevels).lateral = none from rfl]
            simp only [gatherStepAux]
            rw [hoff, if_pos hc]
            rfl
          have h1n : ∀ k, k ≠ mx →
              alookup k (dictInsert nL kv.1 kv.2) = alookup k (dictInsert nN kv.1 kv.2) := by
            intro k hk
            by_cases hkk : k = kv.1
            · rw [hkk, alookup_dictInsert_self, alookup_dictInsert_self]
            · rw [alookup_dictInsert_ne nL kv.1 k kv.2 hkk,
                alookup_dictInsert_ne nN kv.1 k kv.2 hkk]
              exact h1 k hk
          have h2n : alookup mx (dictInsert nN kv.1 kv.2) = none := by
            rw [alookup_dictInsert_ne nN kv.1 mx kv.2 (fun he => hkm he.symm)]
            exact h2
          simp only [List.foldlM_cons, hstepL, hstepN, ok_bind]
          exact ih hcht (dictInsert nL kv.1 kv.2) (dictInsert nN kv.1 kv.2) h1n h2n
        · have hstepL : gatherStep cl mx nL kv = Except.ok nL := by
            unfold gatherStep
            rw [hlat]
            simp only [gatherStepAux]
            rw [if_neg (show ¬ kv.1 = (mx, conv).1 from hkm), if_neg hc]
            rfl
          have hstepN : gatherStep { cl with lateral := none } mx nN kv = Except.ok nN := by
            unfold gatherStep
            rw [show ({ cl with lateral := none } : CombineLevels).lateral = none from rfl]
            simp only [gatherStepAux]
            rw [hoff, if_neg hc]
            rfl
          simp only [List.foldlM_cons, hstepL, hstepN, ok_bind]
          exact ih hcht nL nN h1 h2

/-- C10. The resampled input (the maximum offset) is always the resample of
the raw mapping entry and is never lateral-projected: a node whose
designated lateral offset coincides with its maximum offset behaves exactly
like the same node with no lateral projection at all, because the gathering
loop's lateral-projected entry is overwritten by the resample of the raw
tensor (the hypothesis only asks that the lateral convolution accepts the
raw entry's channel count, so that the projected-and-discarded application
does not itself raise). -/
theorem c10_lateral_never_on_resampled (cl : CombineLevels) (mx : Int) (conv : Conv1x1)
    (x : FMap)
    (hmx : cl.offsets.max? = some mx)
    (hlat : cl.lateral = some (mx, conv))
    (hch : ∀ kv ∈ x, kv.1 = mx → kv.2.channels = conv.inC) :
    combineCall cl x = combineCall { cl with lateral := none } x := by
  obtain ⟨nL2, nN2, hfoldL, hfoldN, hagree, hmxN⟩ :=
    gatherLoop_pair cl mx conv hlat x hch [] [] (fun k _ => rfl) rfl
  have hoff : ({ cl with lateral := none } : CombineLevels).offsets = cl.offsets := rfl
  have hmx2 : ({ cl with lateral := none } : CombineLevels).offsets.max? = some mx := hmx
  cases hvmx : alookup mx x with
  | none =>
      have hGL : gatherNodes cl x = Except.error "KeyError" := by
        unfold gatherNodes
        rw [hmx]
        simp only [liftO_some, ok_bind]
        rw [hfoldL]
        simp only [ok_bind]
        rw [hvmx]
        rfl
      have hGN : gatherNodes { cl with lateral := none } x = Except.error "KeyError" := by
        unfold gatherNodes
        rw [hmx2]
        simp only [liftO_some, ok_bind]
        rw [hfoldN]
        simp only [ok_bind]
        rw [hvmx]
        rfl
      unfold combineCall
      rw [hGL, hGN]
      rfl
  | some vmx =>
      have hres : resampleApply { cl with lateral := none } vmx = resampleApply cl vmx := rfl
      have hGL : gatherNodes cl x = Except.ok (dictInsert nL2 mx (resampleApply cl vmx)) := by
        unfold gatherNodes
        rw [hmx]
        simp only [liftO_some, ok_bind]
        rw [hfoldL]
        simp only [ok_bind]
        rw [hvmx]
        rfl
      have hGN : gatherNodes { cl with lateral := none } x =
          Except.ok (dictInsert nN2 mx (resampleApply cl vmx)) := by
        unfold gatherNodes
        rw [hmx2]
        simp only [liftO_some, ok_bind]
        rw [hfoldN]
        simp only [ok_bind]
        rw [hvmx]
        rfl
      have hlook : ∀ k, alookup k (dictInsert nL2 mx (resampleApply cl vmx)) =
          alookup k (dictInsert nN2 mx (resampleApply cl vmx)) := by
        intro k
        by_cases hk : k = mx
        · rw [hk, alookup_dictInsert_self, alookup_dictInsert_self]
        · rw [alookup_dictInsert_ne _ _ _ _ hk, alookup_dictInsert_ne _ _ _ _ hk]
          exact hagree k hk
      have hrelu : reluWeights { cl with lateral := none } = reluWeights cl := rfl
      have hden : combineDenom { cl with lateral := none } = combineDenom cl := rfl
      unfold combineCall
      rw [hGL, hGN]
      simp only [ok_bind, hoff, hrelu, hden]
      have hmapeq :
          (cl.offsets.enum.mapM (fun p => do
            let v ← liftO "KeyError" (alookup p.2 (dictInsert nL2 mx (resampleApply cl vmx)))
            let w ← liftO "IndexError" ((reluWeights cl).get? p.1)
            pure (fmScale (w / combineDenom cl) v)) : Except String (List FeatureMap)) =
          (cl.offsets.enum.mapM (fun p => do
            let v ← liftO "KeyError" (alookup p.2 (dictInsert nN2 mx (resampleApply cl vmx)))
            let w ← liftO "IndexError" ((reluWeights cl).get? p.1)
            pure (fmScale (w / combineDenom cl) v)) : Except String (List FeatureMap)) := by
        apply mapM_congr
        intro p _
        rw [hlook p.2]
      rw [hmapeq]

/-- C10 witness: the theorem applied to a node with offsets [0, 1], lateral
projection attached to offset 1 (the maximum), and a matching input. -/
theorem c10_witness : combineCall c10cl c10x = combineCall { c10cl with lateral := none } c10x :=
  c10_lateral_never_on_resampled c10cl 1 c10conv c10x rfl rfl
    (by intro kv hm h1; rcases List.mem_cons.mp hm with he | he
        · rw [he] at h1; cases h1
        · rcases List.mem_cons.mp he with he2 | he2
          · rw [he2]; rfl
          · cases he2)

theorem headI_eq_head_of_ne_nil (l : List Int) (h : l ≠ []) : l.headI = l.head h := by
  cases l with
  | nil => exact absurd rfl h
  | cons a t => rfl

theorem blockInit_num_levels (act : ℚ → ℚ) (C n : Nat) (ch : List (Int × Nat)) :
    (blockInit act C n ch).num_levels = n := rfl

theorem blockInit_zip_length (act : ℚ → ℚ) (C n : Nat) (ch : List (Int × Nat)) :
    ((blockInit act C n ch).combines.zip (blockInit act C n ch).post_combines).length = 8 := rfl

theorem blockInit_post_channels (act : ℚ → ℚ) (C n : Nat) (ch : List (Int × Nat)) :
    ∀ pc ∈ (blockInit act C n ch).post_combines, pc.pw.outC = C := by
  intro pc h
  obtain ⟨p, _, he⟩ := List.mem_map.mp h
  rw [← he]
  rfl

theorem runBlocks_structure (C nl : Nat) (l0 : Int) :
    ∀ (bs : List BiFPNBlock),
      (∀ b ∈ bs, b.num_levels = nl ∧ (b.combines.zip b.post_combines).length = 8 ∧
        (∀ pc ∈ b.post_combines, pc.pw.outC = C)) →
      ∀ (d mfinal out : FMap),
        keysOf d = intRange l0 nl →
        (∀ kv ∈ d, kv.2.channels = C) →
        runBlocks bs d = Except.ok (mfinal, out) →
        keysOf out = intRange l0 nl ∧ (∀ kv ∈ out, kv.2.channels = C) := by
  intro bs
  induction bs with
  | nil =>
      intro _ d mfinal out hkeys hch h
      have hpair : (d, d) = (mfinal, out) := Except.ok.inj h
      have ho : d = out := congrArg Prod.snd hpair
      rw [← ho]
      exact ⟨hkeys, hch⟩
  | cons b rest ih =>
      intro hbs d mfinal out hkeys hch h
      obtain ⟨hb1, hb2, hb3⟩ := hbs b (List.mem_cons_self b rest)
      unfold runBlocks at h
      obtain ⟨r, hr, h2⟩ := bind_ok_inv h
      obtain ⟨r2, hr2, h3⟩ := bind_ok_inv h2
      have hpair : (r.1, r2.2) = (mfinal, out) := Except.ok.inj h3
      have hout : r2.2 = out := congrArg Prod.snd hpair
      cases nl with
      | zero =>
          have hd : d = [] := by
            cases d with
            | nil => rfl
            | cons kv t =>
                have : kv.1 :: keysOf t = [] := hkeys
                cases this
          rw [hd] at hr
          have hbe : blockCall b [] = Except.error "StopIteration" := rfl
          rw [hbe] at hr
          cases hr
      | succ k =>
          obtain ⟨f0, hf0, hf01⟩ := head_of_keys d l0 (intRange (l0 + 1) k)
            (by rw [hkeys, intRange_succ])
          obtain ⟨m, hm, hm1⟩ := getLast_of_keys d (l0 + k) (by rw [hkeys, intRange_getLast])
          have hub : ∀ kv ∈ d, kv.1 ≤ m.1 := by
            intro kv hkv
            rw [hm1]
            exact ub_of_keys_intRange d l0 k hkeys kv hkv
          obtain ⟨app, happ, hkapp, hprov, hret⟩ :=
            blockCall_ok_inv b d r.1 r.2 f0 m hf0 hm hub hr
          have happch : ∀ kv ∈ app, kv.2.channels = C := by
            intro kv hkv
            obtain ⟨dc, cp, hcp, hs⟩ := hprov kv hkv
            rw [nodeStep_ok_channels b.act dc cp kv.2 hs]
            exact hb3 cp.2 (List.of_mem_zip hcp).2
          have hdlen : d.length = k + 1 := by
            have := congrArg List.length hkeys
            simpa [keysOf, intRange_length] using this
          have halen : app.length = 8 := by
            have := congrArg List.length hkapp
            simpa [keysOf, intRange_length, hb2] using this
          have hx2len : r.1.length = (k + 1) + 8 := by
            rw [happ, List.length_append, hdlen, halen]
          have hretkeys : keysOf r.2 = intRange l0 (k + 1) := by
            rw [hret, hb1, trimAndRekey_keys, hf01, hx2len]
            congr 1
            omega
          have hretch : ∀ kv ∈ r.2, kv.2.channels = C := by
            intro kv hkv
            have hv : kv.2 ∈ (r.2).map Prod.snd := List.mem_map_of_mem Prod.snd hkv
            rw [hret, trimAndRekey_values] at hv
            obtain ⟨kv2, hkv2, he⟩ := List.mem_map.mp hv
            have hkv2m : kv2 ∈ r.1 := List.mem_of_mem_drop hkv2
            rw [← he]
            rw [happ] at hkv2m
            rcases List.mem_append.mp hkv2m with hk | hk
            · exact hch kv2 hk
            · exact happch kv2 hk
          have hrest := ih (fun b2 hb => hbs b2 (List.mem_cons_of_mem b hb)) r.2 r2.1 r2.2
            hretkeys hretch hr2
          rw [← hout]
          exact hrest

/-- C6 amended: bifpn_height equal to len(levels) is excluded (the forward
call raises there, see the counterexample); for every other configuration
with a nonempty ascending level list of at most 8 levels, at least one
fusion block, an input keyed exactly by the configured levels, and a forward
call that completes, the output mapping has exactly bifpn_height entries
whose keys form the contiguous ascending range starting at the finest input
level, and every output feature map has exactly out_channels channels. -/
theorem c6_amended_output_structure
    (act : ℚ → ℚ) (in_ch : List Nat) (outC nb hh : Nat) (levels : List Int)
    (st : BiFPN) (input mfinal out : FMap)
    (hlev : levels ≠ [])
    (hsort : levels.Chain' (· < ·))
    (hlen8 : levels.length ≤ 8)
    (hnb : 1 ≤ nb)
    (hkeys : keysOf input = levels)
    (hst : bifpnInit act in_ch outC nb hh levels = Except.ok st)
    (hcall : bifpnCall st input = Except.ok (mfinal, out)) :
    keysOf out = intRange levels.headI hh ∧
    out.length = hh ∧
    (∀ kv ∈ out, kv.2.channels = outC) := by
  obtain ⟨hheight, ⟨hdnone, hdsome⟩, chd, hblocks⟩ :=
    bifpnInit_ok_inv act in_ch outC nb hh levels st hst
  obtain ⟨ds, fm, hds, hfold, hrun⟩ := bifpnCall_ok_inv st input mfinal out hcall
  have hne : hh ≠ levels.length := by
    intro he
    rw [hdnone he] at hds
    cases hds
  obtain ⟨c, hc, hdseq⟩ := hdsome hne
  rw [hds] at hdseq
  obtain rfl := Option.some.inj hdseq
  have hlev0 : levels.head hlev :: levels.tail = levels := List.head_cons_tail levels hlev
  obtain ⟨f0, hf0, hf01⟩ := head_of_keys input (levels.head hlev) levels.tail
    (by rw [hkeys]; exact hlev0.symm)
  obtain ⟨lv, hlv⟩ : ∃ lv, levels.getLast? = some lv :=
    ⟨levels.getLast hlev, List.getLast?_eq_getLast levels hlev⟩
  obtain ⟨m, hm, hm1⟩ := getLast_of_keys input lv (by rw [hkeys, hlv])
  have hub : ∀ kv ∈ input, kv.1 ≤ m.1 := by
    intro kv hkv
    rw [hm1]
    apply chain_lt_ub levels hsort lv hlv
    have hmk : kv.1 ∈ keysOf input := List.mem_map_of_mem Prod.fst hkv
    rw [hkeys] at hmk
    exact hmk
  obtain ⟨synth, m2, hfm, hsynthkeys, hsynthch, hfmlast, hm21, hfmub⟩ :=
    downsample_fold_structure outC c hc (hh - levels.length - 1) input fm m hm hub hfold
  have hlenin : input.length = levels.length := by
    have := congrArg List.length hkeys
    simpa [keysOf] using this
  have hK : synth.length = (hh - levels.length - 1) + 1 := by
    have := congrArg List.length hsynthkeys
    simpa [keysOf, intRange_length] using this
  cases nb with
  | zero => omega
  | succ r =>
      rw [List.range_succ_eq_map, List.map_cons] at hblocks
      rw [hblocks] at hrun
      unfold runBlocks at hrun
      obtain ⟨rr, hr, h2⟩ := bind_ok_inv hrun
      obtain ⟨r2, hr2, h3⟩ := bind_ok_inv h2
      have hpair : (rr.1, r2.2) = (mfinal, out) := Except.ok.inj h3
      have hout : r2.2 = out := congrArg Prod.snd hpair
      have hfmhead : fm.head? = some f0 := by
        rw [hfm]
        exact head?_append_of_some input synth f0 hf0
      have hfmub2 : ∀ kv ∈ fm, kv.1 ≤ m2.1 := by
        intro kv hkv
        rw [hm21]
        exact hfmub kv hkv
      obtain ⟨app8, happ8, hk8, hprov8, hret⟩ :=
        blockCall_ok_inv _ fm rr.1 rr.2 f0 m2 hfmhead hfmlast hfmub2 hr
      have happ8ch : ∀ kv ∈ app8, kv.2.channels = outC := by
        intro kv hkv
        obtain ⟨dc, cp, hcp, hs⟩ := hprov8 kv hkv
        rw [nodeStep_ok_channels _ dc cp kv.2 hs]
        exact blockInit_post_channels act outC hh _ cp.2 (List.of_mem_zip hcp).2
      have h8 : app8.length = 8 := by
        have := congrArg List.length hk8
        simpa [keysOf, intRange_length, blockInit_zip_length] using this
      have hx2 : rr.1 = input ++ (synth ++ app8) := by
        rw [happ8, hfm, List.append_assoc]
      have hx2len : rr.1.length = levels.length + ((hh - levels.length - 1) + 1) + 8 := by
        rw [happ8, hfm, List.length_append, List.length_append, hlenin, hK, h8]
      have hretn : rr.2 = trimAndRekey f0.1 hh rr.1 := by
        rw [hret, blockInit_num_levels]
      have hretkeys : keysOf rr.2 = intRange levels.headI hh := by
        rw [hretn, trimAndRekey_keys, hf01, ← headI_eq_head_of_ne_nil levels hlev, hx2len]
        congr 1
        omega
      have hretch : ∀ kv ∈ rr.2, kv.2.channels = outC := by
        intro kv hkv
        have hv : kv.2 ∈ (rr.2).map Prod.snd := List.mem_map_of_mem Prod.snd hkv
        rw [hretn, trimAndRekey_values] at hv
        obtain ⟨kv2, hkv2, he⟩ := List.mem_map.mp hv
        rw [← he]
        have hkv2b : kv2 ∈ input.drop (rr.1.length - hh) ++
            (synth ++ app8).drop (rr.1.length - hh - input.length) := by
          rw [← List.drop_append_eq_append_drop, ← hx2]
          exact hkv2
        have hdropnil : input.drop (rr.1.length - hh) = [] := by
          apply List.drop_eq_nil_of_le
          rw [hx2len, hlenin]
          omega
        rw [hdropnil, List.nil_append] at hkv2b
        have hmm2 := List.mem_of_mem_drop hkv2b
        rcases List.mem_append.mp hmm2 with hk | hk
        · exact hsynthch kv2 hk
        · exact happ8ch kv2 hk
      have hrestprops : ∀ b2 ∈ (List.map Nat.succ (List.range r)).map (fun idx =>
          blockInit act outC hh (if idx = 0 then chd
            else levels.map (fun l => (l, outC)))),
          b2.num_levels = hh ∧ (b2.combines.zip b2.post_combines).length = 8 ∧
          (∀ pc ∈ b2.post_combines, pc.pw.outC = outC) := by
        intro b2 hb2
        obtain ⟨i, _, he⟩ := List.mem_map.mp hb2
        rw [← he]
        exact ⟨rfl, rfl, blockInit_post_channels act outC hh _⟩
      have hrest := runBlocks_structure outC hh levels.headI
        _ hrestprops rr.2 r2.1 r2.2 hretkeys hretch hr2
      rw [← hout]
      refine ⟨hrest.1, ?_, hrest.2⟩
      have := congrArg List.length hrest.1
      simpa [keysOf, intRange_length] using this

/-- C3 amended: a forward call does not leave the caller's mapping intact —
it extends it in place. The original entries survive unchanged, in order, as
a strict prefix of the mapping after the call; the synthesized expander
levels (and, when at least one block runs, the first block's eight
intermediate fusion nodes) are appended after them, so the key set is
strictly larger than before the call. -/
theorem c3_amended_inplace_append
    (act : ℚ → ℚ) (in_ch : List Nat) (outC nb hh : Nat) (levels : List Int)
    (st : BiFPN) (input mfinal out : FMap)
    (hlev : levels ≠ [])
    (hsort : levels.Chain' (· < ·))
    (hkeys : keysOf input = levels)
    (hst : bifpnInit act in_ch outC nb hh levels = Except.ok st)
    (hcall : bifpnCall st input = Except.ok (mfinal, out)) :
    mfinal.take input.length = input ∧ input.length < mfinal.length := by
  obtain ⟨hheight, ⟨hdnone, hdsome⟩, chd, hblocks⟩ :=
    bifpnInit_ok_inv act in_ch outC nb hh levels st hst
  obtain ⟨ds, fm, hds, hfold, hrun⟩ := bifpnCall_ok_inv st input mfinal out hcall
  have hne : hh ≠ levels.length := by
    intro he
    rw [hdnone he] at hds
    cases hds
  obtain ⟨c, hc, hdseq⟩ := hdsome hne
  rw [hds] at hdseq
  obtain rfl := Option.some.inj hdseq
  have hlev0 : levels.head hlev :: levels.tail = levels := List.head_cons_tail levels hlev
  obtain ⟨f0, hf0, hf01⟩ := head_of_keys input (levels.head hlev) levels.tail
    (by rw [hkeys]; exact hlev0.symm)
  obtain ⟨lv, hlv⟩ : ∃ lv, levels.getLast? = some lv :=
    ⟨levels.getLast hlev, List.getLast?_eq_getLast levels hlev⟩
  obtain ⟨m, hm, hm1⟩ := getLast_of_keys input lv (by rw [hkeys, hlv])
  have hub : ∀ kv ∈ input, kv.1 ≤ m.1 := by
    intro kv hkv
    rw [hm1]
    apply chain_lt_ub levels hsort lv hlv
    have hmk : kv.1 ∈ keysOf input := List.mem_map_of_mem Prod.fst hkv
    rw [hkeys] at hmk
    exact hmk
  obtain ⟨synth, m2, hfm, hsynthkeys, hsynthch, hfmlast, hm21, hfmub⟩ :=
    downsample_fold_structure outC c hc (hh - levels.length - 1) input fm m hm hub hfold
  have hK : synth.length = (hh - levels.length - 1) + 1 := by
    have := congrArg List.length hsynthkeys
    simpa [keysOf, intRange_length] using this
  cases hbl : st.bifp_layers with
  | nil =>
      rw [hbl] at hrun
      have hpair : (fm, fm) = (mfinal, out) := Except.ok.inj hrun
      have hmf : fm = mfinal := congrArg Prod.fst hpair
      rw [← hmf, hfm]
      refine ⟨List.take_left input synth, ?_⟩
      rw [List.length_append, hK]
      omega
  | cons b0 rest =>
      rw [hbl] at hrun
      unfold runBlocks at hrun
      obtain ⟨rr, hr, h2⟩ := bind_ok_inv hrun
      obtain ⟨r2, hr2, h3⟩ := bind_ok_inv h2
      have hpair : (rr.1, r2.2) = (mfinal, out) := Except.ok.inj h3
      have hmf : rr.1 = mfinal := congrArg Prod.fst hpair
      have hfmhead : fm.head? = some f0 := by
        rw [hfm]
        exact head?_append_of_some input synth f0 hf0
      have hfmub2 : ∀ kv ∈ fm, kv.1 ≤ m2.1 := by
        intro kv hkv
        rw [hm21]
        exact hfmub kv hkv
      obtain ⟨app8, happ8, _, _, _⟩ :=
        blockCall_ok_inv b0 fm rr.1 rr.2 f0 m2 hfmhead hfmlast hfmub2 hr
      rw [← hmf, happ8, hfm, List.append_assoc]
      refine ⟨List.take_left input (synth ++ app8), ?_⟩
      rw [List.length_append, List.length_append, hK]
      omega

/-- C3 witness: the amended theorem applied to a concrete one-block run. -/
theorem c3_witness :
    c3wPair.1.take c3wInput.length = c3wInput ∧ c3wInput.length < c3wPair.1.length :=
  c3_amended_inplace_append actId [4, 8, 16] 4 1 5 [3, 4, 5] c3wSt c3wInput
    c3wPair.1 c3wPair.2 (by decide)
    (List.Chain.cons (by norm_num) (List.Chain.cons (by norm_num) List.Chain.nil))
    rfl rfl rfl

/-- C6 witness: the amended theorem applied to a concrete two-block run with
bifpn_height 5 over levels [3, 4, 5]. -/
theorem c6_witness :
    keysOf c6wPair.2 = intRange ([3, 4, 5] : List Int).headI 5 ∧
    c6wPair.2.length = 5 ∧
    (∀ kv ∈ c6wPair.2, kv.2.channels = 8) :=
  c6_amended_output_structure actId [6, 12, 24] 8 2 5 [3, 4, 5] c6wSt c6wInput
    c6wPair.1 c6wPair.2 (by decide)
    (List.Chain.cons (by norm_num) (List.Chain.cons (by norm_num) List.Chain.nil))
    (by decide) (by decide) rfl rfl rfl

/-- C8. Determinism of the forward pass: the embedding of BiFPN.__call__ is
a function of the stack state (the read-only parameters) and the input
mapping alone — the source consumes no randomness at inference — so two
forward calls on identical parameters and identical private input mappings
return identical results. -/
theorem c8_determinism (b : BiFPN) (m1 m2 : FMap) (h : m1 = m2) :
    bifpnCall b m1 = bifpnCall b m2 := by rw [h]

/-- C8 witness: the determinism theorem applied to a concrete constructed
stack and input. -/
theorem c8_witness : bifpnCall c8St c8Inp = bifpnCall c8St c8Inp :=
  c8_determinism c8St c8Inp c8Inp rfl

end BiFPNVerify
